import Mathlib

/-!
# SmolChat-Android: the streaming completion session

A shallow embedding of `smollm/src/main/cpp/LLMInference.cpp` (the current
session class), of `smollm/src/main/cpp/llm_inference.cpp` (the earlier
variant of the same class), of the text splitter
`smollm/src/main/cpp/splitters/RecursiveTextSplitter.cpp` and of the vector
store `smolvectordb/src/main/cpp/VectorDB.cpp`, with the properties of the
specification stated and settled over the embedding.

Conventions of the embedding

* a `char` / `unsigned char` is a `Fin 256`; a `std::string` or a character
  buffer is the list of its bytes (`Bytes`);
* a `const char *` argument is the list of the bytes readable from the
  pointer onwards (`none` is the null pointer); a read outside that list is
  a fault and is reported as `none` by the function that performs it;
* the inference engine (llama.cpp) is not part of the repository: it is a
  parameter (`Engine`), a record of the primitives the session calls, over
  an arbitrary engine state `σ`;
* `calls` is an instrumentation field: the list of the engine primitives
  invoked so far, oldest first.
-/

set_option autoImplicit false
set_option maxRecDepth 100000

/-! ## Bytes and C strings -/

/-- One `unsigned char`. -/
abbrev Byte := Fin 256

/-- The bytes of a `std::string`, or the contents of a character buffer. -/
abbrev Bytes := List Byte

/-- A `llama_token` (a 32-bit integer id). -/
abbrev Token := Int

/-- Buffer returned by `std::string::c_str()` / `data()`: the bytes of the
string followed by the terminating zero byte. -/
def c_str (s : Bytes) : Bytes := s ++ [0]

/-- Result of `strdup(p)` read back as a string: the bytes at `p` up to, and
excluding, the first zero byte. -/
def strdup (p : Bytes) : Bytes := p.takeWhile (fun b => b != 0)

/-- The literal `"user"`. -/
def userRole : Bytes := [0x75, 0x73, 0x65, 0x72]

/-- The literal `"assistant"`. -/
def assistantRole : Bytes := [0x61, 0x73, 0x73, 0x69, 0x73, 0x74, 0x61, 0x6E, 0x74]

/-- The literal `"[EOG]"`. -/
def eogMarker : Bytes := [0x5B, 0x45, 0x4F, 0x47, 0x5D]

/-! ## The UTF-8 validator (`LLMInference::_isValidUtf8`) -/

/-- The two nested loops of `_isValidUtf8`, run over the bytes readable from
the pointer `bytes`. The first argument is the number of iterations the inner
`for` loop still has to make (`num - i`); it is `0` at the head of the outer
`while` loop. `none` is a read outside the buffer. -/
def utf8Loop : Nat → Bytes → Option Bool
  | 0, [] => none
  | 0, b :: bs =>
    if b.val = 0x00 then some true
    else if b.val &&& 0x80 = 0x00 then utf8Loop 0 bs
    else if b.val &&& 0xE0 = 0xC0 then utf8Loop 1 bs
    else if b.val &&& 0xF0 = 0xE0 then utf8Loop 2 bs
    else if b.val &&& 0xF8 = 0xF0 then utf8Loop 3 bs
    else some false
  | _ + 1, [] => none
  | k + 1, b :: bs =>
    if b.val &&& 0xC0 ≠ 0x80 then some false else utf8Loop k bs

/-- Embedding of `LLMInference::_isValidUtf8(const char *response)`; the
function `is_valid_utf8` of `llm_inference.cpp` has the same body. -/
def _isValidUtf8 (response : Option Bytes) : Option Bool :=
  match response with
  | none => some true
  | some bytes => utf8Loop 0 bytes

/-! ### The specification's reading of a complete sequence -/

/-- Number of continuation bytes announced by a lead byte, by its high-bit
pattern: `0xxxxxxx` 0, `110xxxxx` 1, `1110xxxx` 2, `11110xxx` 3; no other
byte is a lead byte. -/
def leadFollowers (b : Byte) : Option Nat :=
  if b.val / 128 = 0 then some 0
  else if b.val / 32 = 6 then some 1
  else if b.val / 16 = 14 then some 2
  else if b.val / 8 = 30 then some 3
  else none

/-- A byte of pattern `10xxxxxx`. -/
def IsContinuation (b : Byte) : Prop := b.val / 64 = 2

/-- One complete unit: a lead byte followed by exactly the number of
continuation bytes it announces. -/
def IsCompleteUnit (u : Bytes) : Prop :=
  ∃ (lead : Byte) (tail : Bytes) (n : Nat),
    u = lead :: tail ∧ leadFollowers lead = some n ∧ tail.length = n ∧
      ∀ c ∈ tail, IsContinuation c

/-- A concatenation of zero or more complete units, with nothing left over. -/
def IsCompleteSequence (b : Bytes) : Prop :=
  ∃ us : List Bytes, (∀ u ∈ us, IsCompleteUnit u) ∧ us.flatten = b

/-! ## Outcomes, messages and the engine -/

/-- The `std::runtime_error`s the session throws, by their message. -/
inductive runtime_error
  /-- Message `"context size reached"`. -/
  | context_size_reached
  /-- Message `"llama_decode() failed"`. -/
  | llama_decode_failed
  /-- Message `"llama_chat_apply_template() in LLMInference::start_completion() failed"`. -/
  | chat_apply_template_in_start_completion
  /-- Message `"llama_chat_apply_template() in LLMInference::stop_completion() failed"`. -/
  | chat_apply_template_in_stop_completion
  deriving DecidableEq, Repr

/-- How a call of a member function ends. -/
inductive Outcome (α : Type)
  /-- The call returns a value. -/
  | returns (v : α)
  /-- The call throws. -/
  | throws (e : runtime_error)
  /-- The call ends the process with `exit(code)`. -/
  | exits (code : Int)
  /-- The call has undefined behaviour (a null or out-of-range access). -/
  | undefined
  deriving DecidableEq, Repr

/-- A `llama_chat_message`: two C strings. -/
structure llama_chat_message where
  role : Bytes
  content : Bytes
  deriving DecidableEq, Repr

/-- The engine primitives that are recorded in the `calls` field. -/
inductive EngineCall
  | decode
  | sample
  | token_to_piece
  | chat_template
  | tokenize
  deriving DecidableEq, Repr

/-- The llama.cpp primitives used by the session, over an engine state `σ`
(model, context, memory and sampler together). Primitives that change the
engine return the new state. -/
structure Engine (σ : Type) where
  /-- `llama_n_ctx(ctx)`: the context window size. -/
  llama_n_ctx : σ → Nat
  /-- `llama_memory_seq_pos_max(llama_get_memory(ctx), 0)`. -/
  llama_memory_seq_pos_max : σ → Int
  /-- `llama_get_kv_cache_used_cells(ctx)`. -/
  llama_get_kv_cache_used_cells : σ → Int
  /-- `ggml_time_us()`. -/
  ggml_time_us : σ → Int
  /-- `llama_decode(ctx, batch)`: result code and new engine state. -/
  llama_decode : σ → List Token → Int × σ
  /-- `llama_sampler_sample(sampler, ctx, -1)`: token and new engine state. -/
  llama_sampler_sample : σ → Token × σ
  /-- `llama_vocab_is_eog` / `llama_token_is_eog`. -/
  is_eog : σ → Token → Bool
  /-- `common_token_to_piece(ctx, token, true)`. -/
  common_token_to_piece : σ → Token → Bytes
  /-- `common_tokenize(vocab, prompt, true, true)`. -/
  common_tokenize : σ → Bytes → List Token
  /-- `common_chat_templates_apply(common_chat_templates_init(model,
  chatTemplate), inputs).prompt`, with `inputs.use_jinja = true`: arguments
  are the template and the messages. -/
  common_chat_templates_apply : σ → Bytes → List llama_chat_message → Bytes
  /-- `llama_chat_apply_template(model, nullptr, chat, n_msg, add_ass, buf,
  length)`: arguments are the messages, `add_ass` and the buffer length
  (`none` for a null buffer); results are the returned length, the bytes
  written at the start of the buffer, and the new engine state. -/
  llama_chat_apply_template : σ → List llama_chat_message → Bool → Option Nat → Int × Bytes × σ

/-- Conversion of an `int` to `uint32_t`. -/
def toUInt32 (x : Int) : Nat := (x % 4294967296).toNat

/-! ## `LLMInference.cpp` -/

/-- What `_batch->token` points to. -/
inductive TokenPtr
  /-- The pointer `_promptTokens.data()`. -/
  | promptTokens
  /-- The pointer `&_currToken`. -/
  | currToken
  deriving DecidableEq, Repr

/-- The two fields of `llama_batch` the session sets. -/
structure llama_batch where
  token : TokenPtr
  n_tokens : Int
  deriving DecidableEq, Repr

/-- The data members of class `LLMInference` (`LLMInference.cpp`), the engine
state, and the instrumentation field `calls`. `_batch` is `none` while the
pointer has not been set. -/
structure LLMInference (σ : Type) where
  _ctx : σ
  _chatTemplate : Bytes
  _storeChats : Bool
  _messages : List llama_chat_message
  _formattedMessages : Bytes
  _promptTokens : List Token
  _batch : Option llama_batch
  _currToken : Token
  _response : Bytes
  _cacheResponseTokens : Bytes
  _responseGenerationTime : Int
  _responseNumTokens : Nat
  _nCtxUsed : Int
  calls : List EngineCall

namespace LLMInference

variable {σ : Type}

/-- State of the object once `loadModel` has returned, given the engine state
`ctx` produced by the llama.cpp initialisation calls: `_messages` is cleared,
`_formattedMessages` has `llama_n_ctx` bytes, the strings are empty and the
counters zero. -/
def loadModel (E : Engine σ) (ctx : σ) (storeChats : Bool) (chatTemplate : Bytes) :
    LLMInference σ where
  _ctx := ctx
  _chatTemplate := strdup chatTemplate
  _storeChats := storeChats
  _messages := []
  _formattedMessages := List.replicate (E.llama_n_ctx ctx) 0
  _promptTokens := []
  _batch := none
  _currToken := 0
  _response := []
  _cacheResponseTokens := []
  _responseGenerationTime := 0
  _responseNumTokens := 0
  _nCtxUsed := 0
  calls := []

/-- Embedding of `LLMInference::addChatMessage(message, role)`:
the pair `strdup(role)`, `strdup(message)` is pushed on `_messages`. -/
def addChatMessage (s : LLMInference σ) (message role : Bytes) : LLMInference σ :=
  { s with _messages := s._messages ++ [⟨strdup role, strdup message⟩] }

/-- Embedding of `LLMInference::getContextSizeUsed`. -/
def getContextSizeUsed (s : LLMInference σ) : Int := s._nCtxUsed

/-- Embedding of `LLMInference::startCompletion(query)`. -/
def startCompletion (E : Engine σ) (s : LLMInference σ) (query : Bytes) : LLMInference σ :=
  let s1 : LLMInference σ :=
    if !s._storeChats then
      { s with _formattedMessages := List.replicate (E.llama_n_ctx s._ctx) 0 }
    else s
  let s2 : LLMInference σ := { s1 with _responseGenerationTime := 0, _responseNumTokens := 0 }
  let s3 := addChatMessage s2 query userRole
  let prompt := E.common_chat_templates_apply s3._ctx s3._chatTemplate s3._messages
  let tokens := E.common_tokenize s3._ctx prompt
  { s3 with
    _promptTokens := tokens
    _batch := some ⟨TokenPtr.promptTokens, Int.ofNat tokens.length⟩
    calls := s3.calls ++ [EngineCall.chat_template, EngineCall.tokenize] }

/-- The tokens `llama_decode` reads through `*_batch`, given the contents of
`_promptTokens` and of `_currToken`. -/
def batchTokens (promptTokens : List Token) (currToken : Token) (b : llama_batch) :
    List Token :=
  match b.token with
  | TokenPtr.promptTokens => promptTokens.take b.n_tokens.toNat
  | TokenPtr.currToken => [currToken].take b.n_tokens.toNat

/-- Embedding of `LLMInference::completionLoop()`: the outcome of the call
and the state it leaves. -/
def completionLoop (E : Engine σ) (s : LLMInference σ) :
    Outcome Bytes × LLMInference σ :=
  let contextSize : Nat := E.llama_n_ctx s._ctx % 4294967296
  let s1 : LLMInference σ := { s with _nCtxUsed := E.llama_memory_seq_pos_max s._ctx + 1 }
  match s1._batch with
  | none => (Outcome.undefined, s1)
  | some batch =>
    if toUInt32 (s1._nCtxUsed + batch.n_tokens) > contextSize then
      (Outcome.throws runtime_error.context_size_reached, s1)
    else
      let start := E.ggml_time_us s1._ctx
      let dec := E.llama_decode s1._ctx (batchTokens s1._promptTokens s1._currToken batch)
      let s2 : LLMInference σ := { s1 with _ctx := dec.2, calls := s1.calls ++ [EngineCall.decode] }
      if dec.1 < 0 then
        (Outcome.throws runtime_error.llama_decode_failed, s2)
      else
        let smp := E.llama_sampler_sample s2._ctx
        let s3 : LLMInference σ :=
          { s2 with _ctx := smp.2, _currToken := smp.1, calls := s2.calls ++ [EngineCall.sample] }
        if E.is_eog s3._ctx s3._currToken then
          let s4 := addChatMessage s3 (strdup (c_str s3._response)) assistantRole
          (Outcome.returns eogMarker, { s4 with _response := [] })
        else
          let piece := E.common_token_to_piece s3._ctx s3._currToken
          let stop := E.ggml_time_us s3._ctx
          let s4 : LLMInference σ :=
            { s3 with
              _responseGenerationTime := s3._responseGenerationTime + (stop - start)
              _responseNumTokens := s3._responseNumTokens + 1
              _cacheResponseTokens := s3._cacheResponseTokens ++ piece
              _batch := some ⟨TokenPtr.currToken, 1⟩
              calls := s3.calls ++ [EngineCall.token_to_piece] }
          match _isValidUtf8 (some (c_str s4._cacheResponseTokens)) with
          | some true =>
            (Outcome.returns s4._cacheResponseTokens,
              { s4 with
                _response := s4._response ++ s4._cacheResponseTokens
                _cacheResponseTokens := [] })
          | some false => (Outcome.returns [], s4)
          | none => (Outcome.undefined, s4)

/-- Embedding of `LLMInference::stopCompletion()`. -/
def stopCompletion (s : LLMInference σ) : LLMInference σ :=
  let s1 := if s._storeChats then addChatMessage s (c_str s._response) assistantRole else s
  { s1 with _response := [] }

/-! ### Observations on one step and runs of steps -/

/-- The step passes the context-size check. -/
def passesContextCheck (E : Engine σ) (s : LLMInference σ) : Prop :=
  ∃ batch, s._batch = some batch ∧
    ¬ toUInt32 (E.llama_memory_seq_pos_max s._ctx + 1 + batch.n_tokens) >
      E.llama_n_ctx s._ctx % 4294967296

/-- Result of the `llama_decode` call of the step (code and engine state). -/
def decodeOf (E : Engine σ) (s : LLMInference σ) : Int × σ :=
  match s._batch with
  | none => (0, s._ctx)
  | some batch =>
    E.llama_decode s._ctx (batchTokens s._promptTokens s._currToken batch)

/-- Result of the `llama_sampler_sample` call of the step. -/
def sampleOf (E : Engine σ) (s : LLMInference σ) : Token × σ :=
  E.llama_sampler_sample (decodeOf E s).2

/-- The step reaches the sampler (check passed, decode did not fail) and the
sampled token is, or is not, an end-of-generation token. -/
def SamplesEog (E : Engine σ) (s : LLMInference σ) (eog : Bool) : Prop :=
  passesContextCheck E s ∧ ¬ (decodeOf E s).1 < 0 ∧
    E.is_eog (sampleOf E s).2 (sampleOf E s).1 = eog

/-- The fragment `common_token_to_piece` yields for the sampled token. -/
def fragmentOf (E : Engine σ) (s : LLMInference σ) : Bytes :=
  E.common_token_to_piece (sampleOf E s).2 (sampleOf E s).1

/-- The state a step leaves when it samples a token that is not an
end-of-generation token, before the validator is consulted. -/
def afterPiece (E : Engine σ) (s : LLMInference σ) : LLMInference σ :=
  { s with
    _nCtxUsed := E.llama_memory_seq_pos_max s._ctx + 1
    _ctx := (sampleOf E s).2
    _currToken := (sampleOf E s).1
    _responseGenerationTime :=
      s._responseGenerationTime + (E.ggml_time_us (sampleOf E s).2 - E.ggml_time_us s._ctx)
    _responseNumTokens := s._responseNumTokens + 1
    _cacheResponseTokens := s._cacheResponseTokens ++ fragmentOf E s
    _batch := some ⟨TokenPtr.currToken, 1⟩
    calls := s.calls ++ [EngineCall.decode] ++ [EngineCall.sample] ++ [EngineCall.token_to_piece] }

/-- State after `n` consecutive calls of `completionLoop`, whatever their
outcomes. -/
def afterSteps (E : Engine σ) : Nat → LLMInference σ → LLMInference σ
  | 0, s => s
  | n + 1, s => afterSteps E n (completionLoop E s).2

/-- Outputs of `n` consecutive calls of `completionLoop`, in order. -/
def outputsOfSteps (E : Engine σ) : Nat → LLMInference σ → List (Outcome Bytes)
  | 0, _ => []
  | n + 1, s => (completionLoop E s).1 :: outputsOfSteps E n (completionLoop E s).2

/-- Each of the next `n` calls of `completionLoop` reaches the sampler and
samples a token that is not an end-of-generation token. -/
def NonEogRun (E : Engine σ) : Nat → LLMInference σ → Prop
  | 0, _ => True
  | n + 1, s => SamplesEog E s false ∧ NonEogRun E n (completionLoop E s).2

/-- Concatenation of the strings returned by a list of calls. -/
def concatReturned : List (Outcome Bytes) → Bytes
  | [] => []
  | Outcome.returns v :: rest => v ++ concatReturned rest
  | _ :: rest => concatReturned rest

end LLMInference

/-! ## `llm_inference.cpp` -/

/-- The data members of class `LLMInference` as declared for
`llm_inference.cpp`, the engine state, and the instrumentation field `calls`.
`formatted` is the scratch buffer of the renderer and `prev_len` the length
already rendered; `batch` holds the tokens `llama_batch_get_one` was given. -/
structure llm_inference (σ : Type) where
  ctx : σ
  store_chats : Bool
  messages : List llama_chat_message
  formatted : Bytes
  prev_len : Int
  batch : List Token
  curr_token : Token
  response : Bytes
  cache_response_tokens : Bytes
  response_generation_time : Int
  response_num_tokens : Nat
  calls : List EngineCall

namespace llm_inference

variable {σ : Type}

/-- Embedding of `LLMInference::add_chat_message(message, role)`. -/
def add_chat_message (s : llm_inference σ) (message role : Bytes) : llm_inference σ :=
  { s with messages := s.messages ++ [⟨strdup role, strdup message⟩] }

/-- Contents of a buffer of `std::vector<char>` after the engine wrote
`written` at its start: the size of the vector does not change. -/
def overwrite (buf written : Bytes) : Bytes :=
  written.take buf.length ++ buf.drop (written.take buf.length).length

/-- Contents after `formatted.resize(n)`: cut, or filled with zero bytes. -/
def resize (buf : Bytes) (n : Nat) : Bytes :=
  buf.take n ++ List.replicate (n - buf.length) 0

/-- The string `std::string(buf.begin() + first, buf.begin() + last)`; `none`
when the range is not a valid range of the buffer. -/
def slice (buf : Bytes) (first last : Int) : Option Bytes :=
  if 0 ≤ first ∧ first ≤ last ∧ last ≤ Int.ofNat buf.length then
    some ((buf.take last.toNat).drop first.toNat)
  else none

/-- One call `llama_chat_apply_template(model, nullptr, messages.data(),
messages.size(), add_ass, formatted.data(), formatted.size())`: the returned
length and the state with the buffer and the engine updated. -/
def applyTemplateToBuffer (E : Engine σ) (s : llm_inference σ) (add_ass : Bool) :
    Int × llm_inference σ :=
  let r := E.llama_chat_apply_template s.ctx s.messages add_ass (some s.formatted.length)
  (r.1, { s with
    ctx := r.2.2
    formatted := overwrite s.formatted r.2.1
    calls := s.calls ++ [EngineCall.chat_template] })

/-- Embedding of `LLMInference::start_completion(query)`. The value returned
on success is the local `prompt`, the text handed to the tokenizer. -/
def start_completion (E : Engine σ) (s : llm_inference σ) (query : Bytes) :
    Outcome Bytes × llm_inference σ :=
  let s1 : llm_inference σ :=
    if !s.store_chats then { s with prev_len := 0, formatted := [] } else s
  let s2 : llm_inference σ := { s1 with response_generation_time := 0, response_num_tokens := 0 }
  let s3 := add_chat_message s2 query userRole
  let first := applyTemplateToBuffer E s3 true
  let second : Int × llm_inference σ :=
    if first.1 > Int.ofNat first.2.formatted.length then
      applyTemplateToBuffer E
        { first.2 with formatted := resize first.2.formatted first.1.toNat } true
    else first
  let new_len := second.1
  let s4 := second.2
  if new_len < 0 then
    (Outcome.throws runtime_error.chat_apply_template_in_start_completion, s4)
  else
    match slice s4.formatted s4.prev_len new_len with
    | none => (Outcome.undefined, s4)
    | some prompt =>
      (Outcome.returns prompt,
        { s4 with
          batch := E.common_tokenize s4.ctx prompt
          calls := s4.calls ++ [EngineCall.tokenize] })

/-- Embedding of `LLMInference::completion_loop()`. -/
def completion_loop (E : Engine σ) (s : llm_inference σ) :
    Outcome Bytes × llm_inference σ :=
  let context_size : Int := Int.ofNat (E.llama_n_ctx s.ctx)
  let n_ctx_used : Int := E.llama_get_kv_cache_used_cells s.ctx
  if n_ctx_used + Int.ofNat s.batch.length > context_size then
    (Outcome.exits 0, s)
  else
    let start := E.ggml_time_us s.ctx
    let dec := E.llama_decode s.ctx s.batch
    let s2 : llm_inference σ := { s with ctx := dec.2, calls := s.calls ++ [EngineCall.decode] }
    if dec.1 < 0 then
      (Outcome.throws runtime_error.llama_decode_failed, s2)
    else
      let smp := E.llama_sampler_sample s2.ctx
      let s3 : llm_inference σ :=
        { s2 with ctx := smp.2, curr_token := smp.1, calls := s2.calls ++ [EngineCall.sample] }
      if E.is_eog s3.ctx s3.curr_token then
        (Outcome.returns eogMarker, s3)
      else
        let piece := E.common_token_to_piece s3.ctx s3.curr_token
        let stop := E.ggml_time_us s3.ctx
        let s4 : llm_inference σ :=
          { s3 with
            response_generation_time := s3.response_generation_time + (stop - start)
            response_num_tokens := s3.response_num_tokens + 1
            cache_response_tokens := s3.cache_response_tokens ++ piece
            batch := [s3.curr_token]
            calls := s3.calls ++ [EngineCall.token_to_piece] }
        match _isValidUtf8 (some (c_str s4.cache_response_tokens)) with
        | some true =>
          (Outcome.returns s4.cache_response_tokens,
            { s4 with
              response := s4.response ++ s4.cache_response_tokens
              cache_response_tokens := [] })
        | some false => (Outcome.returns [], s4)
        | none => (Outcome.undefined, s4)

/-- Embedding of `LLMInference::stop_completion()`. -/
def stop_completion (E : Engine σ) (s : llm_inference σ) :
    Outcome Unit × llm_inference σ :=
  let s1 :=
    if s.store_chats then add_chat_message s (strdup (c_str s.response)) assistantRole else s
  let s2 : llm_inference σ := { s1 with response := [] }
  let r := E.llama_chat_apply_template s2.ctx s2.messages false none
  let s3 : llm_inference σ :=
    { s2 with prev_len := r.1, ctx := r.2.2, calls := s2.calls ++ [EngineCall.chat_template] }
  if s3.prev_len < 0 then
    (Outcome.throws runtime_error.chat_apply_template_in_stop_completion, s3)
  else (Outcome.returns (), s3)

/-- The engine's `llama_chat_apply_template` renders by the function
`render` (messages and `add_ass` to text), as llama.cpp documents the call:
it returns the total number of bytes of the rendering, and writes at most
`length` bytes, of which the leading ones are the rendering cut at `length`. -/
def RendersBy (E : Engine σ) (render : List llama_chat_message → Bool → Bytes) : Prop :=
  ∀ (c : σ) (ms : List llama_chat_message) (add_ass : Bool) (length : Option Nat),
    (E.llama_chat_apply_template c ms add_ass length).1 = Int.ofNat (render ms add_ass).length ∧
    (E.llama_chat_apply_template c ms add_ass length).2.1.length ≤ length.getD 0 ∧
    (E.llama_chat_apply_template c ms add_ass length).2.1.take (render ms add_ass).length =
      (render ms add_ass).take (length.getD 0)

end llm_inference

/-! ## A scripted engine, for concrete runs -/

/-- Rendering of the scripted engine: every message as its role, a colon, its
content and a newline; the assistant tag is `assistant:`. -/
def scriptRender (ms : List llama_chat_message) (add_ass : Bool) : Bytes :=
  (ms.map (fun m => m.role ++ [0x3A] ++ m.content ++ [0x0A])).flatten ++
    (if add_ass then assistantRole ++ [0x3A] else [])

/-- A scripted engine. Its state is the number of tokens sampled so far; the
sample number `i` is the token `i`. The script gives the piece of each token,
`none` standing for an end-of-generation token, and every token past the end
of the script is an end-of-generation token. The window size, the largest
occupied position and the result of `llama_decode` are fixed. -/
def scriptEngine (window : Nat) (posMax : Int) (decodeResult : Int)
    (script : List (Option Bytes)) : Engine Nat where
  llama_n_ctx := fun _ => window
  llama_memory_seq_pos_max := fun _ => posMax
  llama_get_kv_cache_used_cells := fun _ => posMax + 1
  ggml_time_us := fun c => Int.ofNat c
  llama_decode := fun c _ => (decodeResult, c)
  llama_sampler_sample := fun c => (Int.ofNat c, c + 1)
  is_eog := fun _ t => (script.getD t.toNat none).isNone
  common_token_to_piece := fun _ t => (script.getD t.toNat none).getD []
  common_tokenize := fun _ text => text.map (fun b => Int.ofNat b.val)
  common_chat_templates_apply := fun _ _ ms => scriptRender ms true
  llama_chat_apply_template := fun c ms add_ass length =>
    (Int.ofNat (scriptRender ms add_ass).length,
      (scriptRender ms add_ass).take (length.getD 0), c)

/-- The bytes of `"hi"`. -/
def hi : Bytes := [0x68, 0x69]

/-- A session of `LLMInference.cpp` with the given members, the others being
those of a freshly loaded session on the scripted engine. -/
def sessionWith (storeChats : Bool) (messages : List llama_chat_message)
    (batch : Option llama_batch) (response cache : Bytes) : LLMInference Nat where
  _ctx := 0
  _chatTemplate := []
  _storeChats := storeChats
  _messages := messages
  _formattedMessages := []
  _promptTokens := [1, 2, 3]
  _batch := batch
  _currToken := 0
  _response := response
  _cacheResponseTokens := cache
  _responseGenerationTime := 0
  _responseNumTokens := 0
  _nCtxUsed := 0
  calls := []

/-- A session of `llm_inference.cpp` on the scripted engine, persistence
enabled, after one turn: the history is user `"hi"`, assistant `"ok"`, whose
rendering without the assistant tag has 21 bytes, and the scratch buffer has
8 bytes. -/
def sessionAfterOneTurn : llm_inference Nat where
  ctx := 1
  store_chats := true
  messages := [⟨userRole, hi⟩, ⟨assistantRole, [0x6F, 0x6B]⟩]
  formatted := List.replicate 8 0
  prev_len := 21
  batch := [0]
  curr_token := 1
  response := []
  cache_response_tokens := []
  response_generation_time := 0
  response_num_tokens := 1
  calls := []

namespace LLMInference

variable {σ : Type}

/-- Fragments `common_token_to_piece` yields in `n` consecutive calls of
`completionLoop` that each sample a token that is not an end-of-generation
token, in order. -/
def fragmentsOfSteps (E : Engine σ) : Nat → LLMInference σ → List Bytes
  | 0, _ => []
  | n + 1, s => fragmentOf E s :: fragmentsOfSteps E n (completionLoop E s).2

end LLMInference

namespace llm_inference

variable {σ : Type}

/-- The state `start_completion` has reached when it first applies the
template: `prev_len` and `formatted` reset when persistence is disabled, the
counters zero, the query appended. -/
def queryAppended (s : llm_inference σ) (query : Bytes) : llm_inference σ :=
  add_chat_message
    { (if !s.store_chats then { s with prev_len := 0, formatted := [] } else s) with
      response_generation_time := 0
      response_num_tokens := 0 } query userRole

/-- The first call of `llama_chat_apply_template` in `start_completion`. -/
def firstApply (E : Engine σ) (s : llm_inference σ) (query : Bytes) : Int × llm_inference σ :=
  applyTemplateToBuffer E (queryAppended s query) true

/-- The state after `formatted.resize(new_len)`. -/
def grownBuffer (E : Engine σ) (s : llm_inference σ) (query : Bytes) : llm_inference σ :=
  { (firstApply E s query).2 with
    formatted := resize (firstApply E s query).2.formatted (firstApply E s query).1.toNat }

/-- The second call of `llama_chat_apply_template` in `start_completion`, made
when the first reported a length larger than the buffer. -/
def retryApply (E : Engine σ) (s : llm_inference σ) (query : Bytes) : Int × llm_inference σ :=
  applyTemplateToBuffer E (grownBuffer E s query) true

end llm_inference

/-- An engine whose template call follows a script of reported lengths: its
state is the number of template calls made so far, and the call number `c`
reports `reports[c]` (`-1` past the end of the script) and writes bytes `A`.
The other primitives are those of the scripted engine. -/
def scriptedTemplateEngine (reports : List Int) : Engine Nat :=
  { scriptEngine 2048 (-1) 0 [] with
    llama_chat_apply_template := fun c _ _ length =>
      (reports.getD c (-1),
        List.replicate (min (reports.getD c (-1)).toNat (length.getD 0)) 0x41, c + 1) }

/-- A session of `llm_inference.cpp` before its first turn, with a scratch
buffer of two bytes; the engine state is `ctx`. -/
def sessionBeforeFirstTurn (ctx : Nat) : llm_inference Nat where
  ctx := ctx
  store_chats := true
  messages := []
  formatted := List.replicate 2 0
  prev_len := 0
  batch := []
  curr_token := 0
  response := []
  cache_response_tokens := []
  response_generation_time := 0
  response_num_tokens := 0
  calls := []

/-! ## `splitters/RecursiveTextSplitter.cpp` -/

namespace RecursiveTextSplitter

/-- Search of `std::string::find(delimiter, pos)`, from position `pos` where
the bytes of the text from `pos` on are `rest`: the first position at which
the delimiter starts, `none` for `npos`. -/
def findFrom (delimiter : Bytes) : Bytes → Nat → Option Nat
  | [], pos => if delimiter.isPrefixOf [] then some pos else none
  | b :: rest, pos =>
    if delimiter.isPrefixOf (b :: rest) then some pos else findFrom delimiter rest (pos + 1)

/-- Model of `text.find(delimiter, pos)`. -/
def find (text delimiter : Bytes) (pos : Nat) : Option Nat :=
  if pos > text.length then none else findFrom delimiter (text.drop pos) pos

/-- Model of `text.substr(pos, n)`, for `pos` within the text. -/
def substr (text : Bytes) (pos n : Nat) : Bytes := (text.drop pos).take n

/-- The `while` loop of `splitWithDelimiter`, run for at most `fuel`
iterations from the state `posStart`, `tokens`; `none` when the loop has not
ended by then. -/
def splitLoop (text delimiter : Bytes) : Nat → Nat → List Bytes → Option (List Bytes)
  | 0, _, _ => none
  | fuel + 1, posStart, tokens =>
    match find text delimiter posStart with
    | some posEnd =>
      splitLoop text delimiter fuel (posEnd + delimiter.length)
        (tokens ++ [substr text posStart (posEnd - posStart)])
    | none => some (tokens ++ [text.drop posStart])

/-- Embedding of `RecursiveTextSplitter::splitWithDelimiter(text, delimiter)`,
its loop run for at most `fuel` iterations. -/
def splitWithDelimiter (fuel : Nat) (text delimiter : Bytes) : Option (List Bytes) :=
  splitLoop text delimiter fuel 0 []

/-- The first inner loop of `split`: the contents of `splitParts` after the
loop over `parts`. -/
def splitParts (fuel : Nat) (delimiter : Bytes) (chunkSize : Nat) :
    List Bytes → Option (List Bytes)
  | [] => some []
  | part :: parts =>
    if part.length > chunkSize then
      match splitWithDelimiter fuel part delimiter with
      | none => none
      | some tokens =>
        match splitParts fuel delimiter chunkSize parts with
        | none => none
        | some later => some (tokens ++ later)
    else
      match splitParts fuel delimiter chunkSize parts with
      | none => none
      | some later => some (part :: later)

/-- The second inner loop of `split`, from the state `prevPart`,
`mergedSplitParts`, over the remaining elements of `splitParts`. -/
def mergeLoop (delimiter : Bytes) (chunkSize : Nat) : Bytes → List Bytes → List Bytes → List Bytes
  | _, [], mergedSplitParts => mergedSplitParts
  | prevPart, part :: rest, mergedSplitParts =>
    if (prevPart ++ delimiter ++ part).length < chunkSize then
      mergeLoop delimiter chunkSize (prevPart ++ delimiter ++ part) rest mergedSplitParts
    else
      mergeLoop delimiter chunkSize part rest (mergedSplitParts ++ [prevPart ++ delimiter ++ part])

/-- The contents of `mergedSplitParts` at the end of one pass of the outer
loop of `split`. -/
def mergeSplitParts (delimiter : Bytes) (chunkSize : Nat) : List Bytes → List Bytes
  | first :: second :: rest => mergeLoop delimiter chunkSize first (second :: rest) []
  | _ => []

/-- The outer loop of `split` over the remaining delimiters, from the state
`parts`. -/
def splitFrom (fuel : Nat) (chunkSize : Nat) : List Bytes → List Bytes → Option (List Bytes)
  | [], parts => some parts
  | delimiter :: delimiters, parts =>
    match splitParts fuel delimiter chunkSize parts with
    | none => none
    | some sp => splitFrom fuel chunkSize delimiters (mergeSplitParts delimiter chunkSize sp)

/-- Embedding of `RecursiveTextSplitter::split(text, chunkSize)` for a splitter
constructed with `_delimiters`; every call of `splitWithDelimiter` runs its
loop for at most `fuel` iterations, and `none` is a call whose loop has not
ended by then. -/
def split (fuel : Nat) (_delimiters : List Bytes) (text : Bytes) (chunkSize : Nat) :
    Option (List Bytes) :=
  splitFrom fuel chunkSize _delimiters [text]

/-- The delimiters of the splitter built by `splitWhiteSpace`
(`TextSplitters.cpp`): `"\n\n"`, `"\n"`, `" "`. -/
def whiteSpaceDelimiters : List Bytes := [[0x0A, 0x0A], [0x0A], [0x20]]

end RecursiveTextSplitter

/-! ## `smolvectordb/src/main/cpp/VectorDB.cpp` -/

namespace VectorDB

/-- The macro `EMBEDDING_DIM`. -/
def EMBEDDING_DIM : Nat := 328

/-- The `float` operations `VectorDB.cpp` uses, over a type `α` of exact
values; the comparisons are those of a linear order on `α` (no NaN). -/
structure FloatOps (α : Type) where
  /-- The literal `0.0f`. -/
  zero : α
  add : α → α → α
  mul : α → α → α
  div : α → α → α
  sqrt : α → α

/-- Class `VectorDBRecord`. -/
structure VectorDBRecord (α : Type) where
  text : Bytes
  embedding : Fin EMBEDDING_DIM → α
  mag : α

variable {α : Type}

/-- Embedding of `VectorDBRecord::computeMagnitude(vector)`. -/
def computeMagnitude (F : FloatOps α) (vector : Fin EMBEDDING_DIM → α) : α :=
  F.sqrt ((List.finRange EMBEDDING_DIM).foldl
    (fun vectorMag i => F.add vectorMag (F.mul (vector i) (vector i))) F.zero)

/-- The constructor `VectorDBRecord(text, embedding)`. -/
def newRecord (F : FloatOps α) (text : Bytes) (embedding : Fin EMBEDDING_DIM → α) :
    VectorDBRecord α :=
  ⟨text, embedding, computeMagnitude F embedding⟩

/-- Embedding of `VectorDB::insertRecord(record)`. -/
def insertRecord (_records : List (VectorDBRecord α)) (record : VectorDBRecord α) :
    List (VectorDBRecord α) :=
  _records ++ [record]

/-- Embedding of `VectorDB::clear()`. -/
def clear (_ : List (VectorDBRecord α)) : List (VectorDBRecord α) := []

/-- The value of `similarity` in the loop body of `nearestNeighbor`. -/
def similarityTo (F : FloatOps α) (query : Fin EMBEDDING_DIM → α) (queryMag : α)
    (record : VectorDBRecord α) : α :=
  F.div
    ((List.finRange EMBEDDING_DIM).foldl
      (fun dot_product i => F.add dot_product (F.mul (query i) (record.embedding i))) F.zero)
    (F.mul queryMag record.mag)

/-- Conversion `(size_t)k` of an `int`. -/
def toSizeT (k : Int) : Nat := (k % 18446744073709551616).toNat

/-- The `std::priority_queue` of `nearestNeighbor`, by the contract of the
standard library: the list of its elements in the order in which `pop` removes
them, so that `top()` is the head. With the comparator `a.first > b.first`
that is the order of increasing `first`; among elements of equal `first`,
whose order the standard leaves open, the one pushed earlier comes first. -/
abbrev TopK (α : Type) := List (α × VectorDBRecord α)

/-- Model of `top_k.push(x)`. -/
def push [LinearOrder α] : TopK α → α × VectorDBRecord α → TopK α
  | [], x => [x]
  | y :: ys, x => if x.1 < y.1 then x :: y :: ys else y :: push ys x

/-- One iteration of the loop over `_records`; `none` is the call of `top()`
on an empty queue. -/
def visit [LinearOrder α] (F : FloatOps α) (query : Fin EMBEDDING_DIM → α) (queryMag : α)
    (k : Int) (top_k : TopK α) (record : VectorDBRecord α) : Option (TopK α) :=
  let similarity := similarityTo F query queryMag record
  if top_k.length < toSizeT k then some (push top_k (similarity, record))
  else
    match top_k with
    | [] => none
    | top :: popped =>
      if similarity > top.1 then some (push popped (similarity, record))
      else some (top :: popped)

/-- The loop over `_records`. -/
def visitAll [LinearOrder α] (F : FloatOps α) (query : Fin EMBEDDING_DIM → α) (queryMag : α)
    (k : Int) : TopK α → List (VectorDBRecord α) → Option (TopK α)
  | top_k, [] => some top_k
  | top_k, record :: records =>
    match visit F query queryMag k top_k record with
    | none => none
    | some next => visitAll F query queryMag k next records

/-- The loop `while (!top_k.empty())` that moves the records to `result`. -/
def drain : TopK α → List (VectorDBRecord α) → List (VectorDBRecord α)
  | [], result => result
  | top :: popped, result => drain popped (result ++ [top.2])

/-- Embedding of `VectorDB::nearestNeighbor(query, k)` on the store
`_records`; `none` is undefined behaviour (`top()` on an empty queue). -/
def nearestNeighbor [LinearOrder α] (F : FloatOps α) (_records : List (VectorDBRecord α))
    (query : Fin EMBEDDING_DIM → α) (k : Int) : Option (List (VectorDBRecord α)) :=
  let queryMag := computeMagnitude F query
  match visitAll F query queryMag k [] _records with
  | none => none
  | some top_k => some (drain top_k []).reverse

/-- Exact arithmetic on the integers, with the integer square root. -/
def intOps : FloatOps Int where
  zero := 0
  add := fun a b => a + b
  mul := fun a b => a * b
  div := fun a b => a / b
  sqrt := fun a => Int.ofNat a.toNat.sqrt

end VectorDB

namespace VectorDB

variable {α : Type}

/-- State of the loop of `nearestNeighbor` after the records `visited`, for
`(size_t)k = K`: the queue is in pop order, holds `min K visited.length`
records with their similarities, and together with the records `dropped`
(never pushed, or popped) accounts for every visited record; no dropped
record has a larger similarity than a record in the queue. -/
def LoopInvariant [LinearOrder α] (sim : VectorDBRecord α → α) (K : Nat) (top_k : TopK α)
    (dropped visited : List (VectorDBRecord α)) : Prop :=
  top_k.Pairwise (fun a b => a.1 ≤ b.1) ∧
  (∀ x ∈ top_k, x.1 = sim x.2) ∧
  top_k.length = min K visited.length ∧
  visited.Perm (top_k.map Prod.snd ++ dropped) ∧
  (∀ r ∈ dropped, ∀ x ∈ top_k, sim r ≤ x.1)

/-- A record whose embedding has the same value in every component. -/
def constantRecord (text : Bytes) (value : Int) : VectorDBRecord Int :=
  newRecord intOps text (fun _ => value)

end VectorDB

namespace RecursiveTextSplitter

/-- The join of a list of tokens with the delimiter between consecutive
tokens. -/
def joinWith (delimiter : Bytes) : List Bytes → Bytes
  | [] => []
  | [token] => token
  | token :: next :: rest => token ++ delimiter ++ joinWith delimiter (next :: rest)

/-- The token contains the delimiter: the delimiter occurs in it as a run of
consecutive bytes. -/
def ContainsDelimiter (token delimiter : Bytes) : Prop :=
  ∃ before after : Bytes, token = before ++ delimiter ++ after

end RecursiveTextSplitter

namespace VectorDB

variable {α : Type}

/-- The sizes of the queue at the calls of `top()` made by the loop over
`_records`, in order: one call for every record that meets a queue whose size
is not below `(size_t)k`. The loop ends at a call on an empty queue. -/
def topReadSizes [LinearOrder α] (F : FloatOps α) (query : Fin EMBEDDING_DIM → α)
    (queryMag : α) (k : Int) : TopK α → List (VectorDBRecord α) → List Nat
  | _, [] => []
  | top_k, record :: records =>
    let later :=
      match visit F query queryMag k top_k record with
      | none => []
      | some next => topReadSizes F query queryMag k next records
    if top_k.length < toSizeT k then later else top_k.length :: later

/-- The sizes of the queue at the calls of `top()` made by the loop
`while (!top_k.empty())`, in order. -/
def drainReadSizes : TopK α → List Nat
  | [] => []
  | top :: popped => (top :: popped).length :: drainReadSizes popped

end VectorDB

/-! ## Byte-pattern facts -/

theorem land80_iff (b : Byte) : b.val &&& 0x80 = 0x00 ↔ b.val / 128 = 0 := by
  revert b; decide

theorem landE0_iff (b : Byte) : b.val &&& 0xE0 = 0xC0 ↔ b.val / 32 = 6 := by
  revert b; decide

theorem landF0_iff (b : Byte) : b.val &&& 0xF0 = 0xE0 ↔ b.val / 16 = 14 := by
  revert b; decide

theorem landF8_iff (b : Byte) : b.val &&& 0xF8 = 0xF0 ↔ b.val / 8 = 30 := by
  revert b; decide

theorem landC0_iff (b : Byte) : b.val &&& 0xC0 = 0x80 ↔ b.val / 64 = 2 := by
  revert b; decide

/-! ## The validator against the specification's reading -/

theorem isCompleteSequence_nil : IsCompleteSequence [] :=
  ⟨[], by simp, rfl⟩

theorem isCompleteSequence_cons_iff (b : Byte) (bs : Bytes) :
    IsCompleteSequence (b :: bs) ↔
      ∃ (n : Nat) (tail rest : Bytes), leadFollowers b = some n ∧ bs = tail ++ rest ∧
        tail.length = n ∧ (∀ c ∈ tail, IsContinuation c) ∧ IsCompleteSequence rest := by
  constructor
  · rintro ⟨us, hus, hflat⟩
    cases us with
    | nil => simp at hflat
    | cons u us =>
      obtain ⟨lead, tail, n, rfl, hlead, hlen, hcont⟩ := hus u (by simp)
      simp only [List.flatten_cons, List.cons_append, List.cons.injEq] at hflat
      obtain ⟨rfl, rfl⟩ := hflat
      exact ⟨n, tail, us.flatten, hlead, rfl, hlen, hcont,
        us, fun v hv => hus v (by simp [hv]), rfl⟩
  · rintro ⟨n, tail, rest, hlead, rfl, hlen, hcont, us, hus, rfl⟩
    refine ⟨(b :: tail) :: us, ?_, by simp⟩
    intro v hv
    rcases List.mem_cons.1 hv with rfl | hv
    · exact ⟨b, tail, n, rfl, hlead, hlen, hcont⟩
    · exact hus v hv

theorem leadFollowers_of_code (b : Byte) :
    leadFollowers b =
      if b.val &&& 0x80 = 0x00 then some 0
      else if b.val &&& 0xE0 = 0xC0 then some 1
      else if b.val &&& 0xF0 = 0xE0 then some 2
      else if b.val &&& 0xF8 = 0xF0 then some 3
      else none := by
  simp only [leadFollowers, land80_iff, landE0_iff, landF0_iff, landF8_iff]

theorem utf8Loop_head (b : Byte) (bs : Bytes) (hb : b ≠ 0) :
    utf8Loop 0 (b :: bs) =
      match leadFollowers b with
      | some n => utf8Loop n bs
      | none => some false := by
  have hv : b.val ≠ 0 := fun h => hb (Fin.ext h)
  rw [leadFollowers_of_code]
  simp only [utf8Loop, hv, if_false]
  split_ifs <;> rfl

theorem utf8Loop_iff (bs : Bytes) (h0 : ∀ x ∈ bs, x ≠ (0 : Byte)) (k : Nat) :
    utf8Loop k (bs ++ [0]) = some true ↔
      ∃ tail rest : Bytes, bs = tail ++ rest ∧ tail.length = k ∧
        (∀ c ∈ tail, IsContinuation c) ∧ IsCompleteSequence rest := by
  induction bs generalizing k with
  | nil =>
    cases k with
    | zero =>
      simp only [List.nil_append, utf8Loop]
      simp only [Fin.val_zero, if_true, true_iff]
      exact ⟨[], [], rfl, rfl, by simp, isCompleteSequence_nil⟩
    | succ k =>
      simp only [List.nil_append, utf8Loop]
      constructor
      · intro h; simp at h
      · rintro ⟨tail, rest, h, hlen, -⟩
        have : tail = [] := by
          cases tail with
          | nil => rfl
          | cons a t => simp at h
        subst this
        simp at hlen
  | cons b bs ih =>
    have hb : b ≠ 0 := h0 b (by simp)
    have h0t : ∀ x ∈ bs, x ≠ (0 : Byte) := fun x hx => h0 x (by simp [hx])
    cases k with
    | zero =>
      rw [List.cons_append, utf8Loop_head b _ hb]
      constructor
      · intro h
        refine ⟨[], b :: bs, rfl, rfl, by simp, ?_⟩
        rw [isCompleteSequence_cons_iff]
        cases hl : leadFollowers b with
        | none => rw [hl] at h; simp at h
        | some n =>
          rw [hl] at h
          obtain ⟨tail, rest, h1, h2, h3, h4⟩ := (ih h0t n).1 h
          exact ⟨n, tail, rest, rfl, h1, h2, h3, h4⟩
      · rintro ⟨tail, rest, h, hlen, -, hseq⟩
        have : tail = [] := List.length_eq_zero.1 hlen
        subst this
        simp only [List.nil_append] at h
        subst h
        rw [isCompleteSequence_cons_iff] at hseq
        obtain ⟨n, tail, rest, hl, h1, h2, h3, h4⟩ := hseq
        rw [hl]
        exact (ih h0t n).2 ⟨tail, rest, h1, h2, h3, h4⟩
    | succ k =>
      simp only [List.cons_append, utf8Loop]
      constructor
      · intro h
        by_cases hc : b.val &&& 0xC0 = 0x80
        · simp only [hc, ne_eq, not_true_eq_false, if_false] at h
          obtain ⟨tail, rest, h1, h2, h3, h4⟩ := (ih h0t k).1 h
          refine ⟨b :: tail, rest, by simp [h1], by simp [h2], ?_, h4⟩
          intro c hcm
          rcases List.mem_cons.1 hcm with rfl | hcm
          · exact (landC0_iff c).1 hc
          · exact h3 c hcm
        · simp [hc] at h
      · rintro ⟨tail, rest, h, hlen, hcont, hseq⟩
        cases tail with
        | nil => simp at hlen
        | cons a t =>
          simp only [List.cons_append, List.cons.injEq] at h
          obtain ⟨rfl, rfl⟩ := h
          have hc : b.val &&& 0xC0 = 0x80 := (landC0_iff b).2 (hcont b (by simp))
          simp only [hc, ne_eq, not_true_eq_false, if_false]
          exact (ih h0t k).2 ⟨t, rest, rfl, by simpa using hlen,
            fun c hcm => hcont c (by simp [hcm]), hseq⟩

/-- C1. For every byte sequence `b` with no zero byte, handed to the validator
as the NUL-terminated buffer `c_str b`, `_isValidUtf8` returns true exactly
when `b` is a concatenation of complete units (a lead byte `0xxxxxxx`,
`110xxxxx`, `1110xxxx` or `11110xxx` followed by exactly 0, 1, 2 or 3 bytes
`10xxxxxx`) with nothing left over; `[0xE4,0xB8]` gives false and
`[0xE4,0xB8,0xAD]` gives true. -/
theorem isValidUtf8_iff_complete_sequence :
    (∀ b : Bytes, (∀ x ∈ b, x ≠ (0 : Byte)) →
      (_isValidUtf8 (some (c_str b)) = some true ↔ IsCompleteSequence b)) ∧
    _isValidUtf8 (some (c_str [0xE4, 0xB8])) = some false ∧
    _isValidUtf8 (some (c_str [0xE4, 0xB8, 0xAD])) = some true := by
  refine ⟨?_, by decide, by decide⟩
  intro b h0
  unfold _isValidUtf8 c_str
  simp only []
  rw [utf8Loop_iff b h0 0]
  constructor
  · rintro ⟨tail, rest, h, hlen, -, hseq⟩
    have : tail = [] := List.length_eq_zero.1 hlen
    subst this
    simpa [h] using hseq
  · intro hseq
    exact ⟨[], b, rfl, rfl, by simp, hseq⟩

theorem isValidUtf8_iff_complete_sequence_witness :
    (_isValidUtf8 (some (c_str [0xE4, 0xB8, 0xAD])) = some true ↔
      IsCompleteSequence [0xE4, 0xB8, 0xAD]) ∧
    (_isValidUtf8 (some (c_str [0x68, 0xC3])) = some true ↔
      IsCompleteSequence [0x68, 0xC3]) :=
  ⟨isValidUtf8_iff_complete_sequence.1 [0xE4, 0xB8, 0xAD] (by decide),
   isValidUtf8_iff_complete_sequence.1 [0x68, 0xC3] (by decide)⟩

/-! ## One step of `completionLoop` -/

theorem utf8Loop_c_str_ne_none (p : Bytes) (k : Nat) : utf8Loop k (p ++ [0]) ≠ none := by
  induction p generalizing k with
  | nil =>
    cases k with
    | zero => simp [utf8Loop]
    | succ k => simp [utf8Loop]
  | cons b bs ih =>
    cases k with
    | zero =>
      simp only [List.cons_append, utf8Loop]
      split_ifs
      · simp
      · exact ih 0
      · exact ih 1
      · exact ih 2
      · exact ih 3
      · simp
    | succ k =>
      simp only [List.cons_append, utf8Loop]
      split_ifs
      · simp
      · exact ih k

theorem isValidUtf8_c_str_ne_none (p : Bytes) : _isValidUtf8 (some (c_str p)) ≠ none :=
  utf8Loop_c_str_ne_none p 0

namespace LLMInference

variable {σ : Type}

theorem completionLoop_of_nonEog (E : Engine σ) (s : LLMInference σ)
    (h : SamplesEog E s false) :
    completionLoop E s =
      if _isValidUtf8 (some (c_str (s._cacheResponseTokens ++ fragmentOf E s))) = some true then
        (Outcome.returns (s._cacheResponseTokens ++ fragmentOf E s),
          { afterPiece E s with
            _response := s._response ++ (s._cacheResponseTokens ++ fragmentOf E s)
            _cacheResponseTokens := [] })
      else (Outcome.returns [], afterPiece E s) := by
  obtain ⟨⟨batch, hb, hchk⟩, hdec, heog⟩ := h
  have hdec2 : ¬ (E.llama_decode s._ctx (batchTokens s._promptTokens s._currToken batch)).1 < 0 := by
    simpa [decodeOf, hb] using hdec
  have heog2 : E.is_eog (E.llama_sampler_sample
      (E.llama_decode s._ctx (batchTokens s._promptTokens s._currToken batch)).2).2
      (E.llama_sampler_sample
      (E.llama_decode s._ctx (batchTokens s._promptTokens s._currToken batch)).2).1 = false := by
    simpa [sampleOf, decodeOf, hb] using heog
  have hfrag : fragmentOf E s = E.common_token_to_piece (E.llama_sampler_sample
      (E.llama_decode s._ctx (batchTokens s._promptTokens s._currToken batch)).2).2
      (E.llama_sampler_sample
      (E.llama_decode s._ctx (batchTokens s._promptTokens s._currToken batch)).2).1 := by
    simp [fragmentOf, sampleOf, decodeOf, hb]
  have hsmp : sampleOf E s = E.llama_sampler_sample
      (E.llama_decode s._ctx (batchTokens s._promptTokens s._currToken batch)).2 := by
    simp [sampleOf, decodeOf, hb]
  simp only [completionLoop, hb, hchk, hdec2, heog2, if_false, Bool.false_eq_true]
  rw [← hfrag]
  cases hv : _isValidUtf8 (some (c_str (s._cacheResponseTokens ++ fragmentOf E s))) with
  | none => exact absurd hv (isValidUtf8_c_str_ne_none _)
  | some v =>
    cases v with
    | true => simp [afterPiece, hsmp]
    | false => simp [afterPiece, hsmp]

theorem completionLoop_of_eog (E : Engine σ) (s : LLMInference σ)
    (h : SamplesEog E s true) :
    completionLoop E s =
      (Outcome.returns eogMarker,
        { s with
          _nCtxUsed := E.llama_memory_seq_pos_max s._ctx + 1
          _ctx := (sampleOf E s).2
          _currToken := (sampleOf E s).1
          _messages := s._messages ++ [⟨assistantRole, strdup (strdup (c_str s._response))⟩]
          _response := []
          calls := s.calls ++ [EngineCall.decode] ++ [EngineCall.sample] }) := by
  obtain ⟨⟨batch, hb, hchk⟩, hdec, heog⟩ := h
  have hdec2 : ¬ (E.llama_decode s._ctx (batchTokens s._promptTokens s._currToken batch)).1 < 0 := by
    simpa [decodeOf, hb] using hdec
  have heog2 : E.is_eog (E.llama_sampler_sample
      (E.llama_decode s._ctx (batchTokens s._promptTokens s._currToken batch)).2).2
      (E.llama_sampler_sample
      (E.llama_decode s._ctx (batchTokens s._promptTokens s._currToken batch)).2).1 = true := by
    simpa [sampleOf, decodeOf, hb] using heog
  have hsmp : sampleOf E s = E.llama_sampler_sample
      (E.llama_decode s._ctx (batchTokens s._promptTokens s._currToken batch)).2 := by
    simp [sampleOf, decodeOf, hb]
  have hrole : strdup assistantRole = assistantRole := by decide
  simp only [completionLoop, hb, hchk, hdec2, heog2, if_false, if_true, addChatMessage, hsmp,
    hrole]

/-- C2. A step that samples a non-EOG token with fragment `f`, with
`p = pendingBytes ++ f`: if the validator accepts `p` the step returns `p`,
appends `p` to `_response` and empties `_cacheResponseTokens`; otherwise it
returns the empty string, leaves `_response` as it was and leaves
`_cacheResponseTokens = p`. From empty buffers, the fragments `[0xE4]`,
`[0xB8,0xAD]`, then EOG, make three consecutive steps return `""`, the bytes
`E4 B8 AD`, and `"[EOG]"`. -/
theorem completionLoop_buffers_fragment :
    (∀ (σ : Type) (E : Engine σ) (s : LLMInference σ), SamplesEog E s false →
      (_isValidUtf8 (some (c_str (s._cacheResponseTokens ++ fragmentOf E s))) = some true →
        (completionLoop E s).1 = Outcome.returns (s._cacheResponseTokens ++ fragmentOf E s) ∧
        (completionLoop E s).2._response =
          s._response ++ (s._cacheResponseTokens ++ fragmentOf E s) ∧
        (completionLoop E s).2._cacheResponseTokens = []) ∧
      (¬ _isValidUtf8 (some (c_str (s._cacheResponseTokens ++ fragmentOf E s))) = some true →
        (completionLoop E s).1 = Outcome.returns [] ∧
        (completionLoop E s).2._response = s._response ∧
        (completionLoop E s).2._cacheResponseTokens =
          s._cacheResponseTokens ++ fragmentOf E s)) ∧
    outputsOfSteps (scriptEngine 2048 (-1) 0 [some [0xE4], some [0xB8, 0xAD], none]) 3
        (startCompletion (scriptEngine 2048 (-1) 0 [some [0xE4], some [0xB8, 0xAD], none])
          (loadModel (scriptEngine 2048 (-1) 0 [some [0xE4], some [0xB8, 0xAD], none]) 0 true [])
          hi) =
      [Outcome.returns [], Outcome.returns [0xE4, 0xB8, 0xAD], Outcome.returns eogMarker] := by
  refine ⟨?_, by decide⟩
  intro σ E s h
  rw [completionLoop_of_nonEog E s h]
  constructor
  · intro hv
    simp [hv]
  · intro hv
    simp [hv, afterPiece]

theorem completionLoop_buffers_fragment_witness :
    SamplesEog (scriptEngine 2048 (-1) 0 [some [0xE4], some [0xB8, 0xAD], none])
      (sessionWith true [] (some ⟨TokenPtr.promptTokens, 3⟩) [] []) false ∧
    (completionLoop (scriptEngine 2048 (-1) 0 [some [0xE4], some [0xB8, 0xAD], none])
      (sessionWith true [] (some ⟨TokenPtr.promptTokens, 3⟩) [] [])).1 = Outcome.returns [] ∧
    (completionLoop (scriptEngine 2048 (-1) 0 [some [0xE4], some [0xB8, 0xAD], none])
      (sessionWith true [] (some ⟨TokenPtr.promptTokens, 3⟩) [] [])).2._cacheResponseTokens =
        [0xE4] := by
  have hs : SamplesEog (scriptEngine 2048 (-1) 0 [some [0xE4], some [0xB8, 0xAD], none])
      (sessionWith true [] (some ⟨TokenPtr.promptTokens, 3⟩) [] []) false :=
    ⟨⟨⟨TokenPtr.promptTokens, 3⟩, rfl, by decide⟩, by decide, by decide⟩
  have h := (completionLoop_buffers_fragment.1 Nat _ _ hs).2 (by decide)
  exact ⟨hs, h.1, h.2.2⟩

/-- C3. In every session state in which the context cells occupied plus the
pending batch size exceed the context window size, `completionLoop` throws the
context-size error and leaves the state as it was apart from `_nCtxUsed`: the
engine state is the same and no engine primitive (no decode, no sampler) has
been invoked. The values are those of the machine types: `llama_pos` and
`n_tokens` are 32-bit signed and not below -1 and 0, the window is 32-bit
unsigned. -/
theorem completionLoop_context_overflow {σ : Type} (E : Engine σ) (s : LLMInference σ)
    (batch : llama_batch) (hb : s._batch = some batch)
    (hpos : -1 ≤ E.llama_memory_seq_pos_max s._ctx)
    (hpos2 : E.llama_memory_seq_pos_max s._ctx < 2147483647)
    (hn : 0 ≤ batch.n_tokens) (hn2 : batch.n_tokens < 2147483648)
    (hw : E.llama_n_ctx s._ctx < 4294967296)
    (hover : E.llama_memory_seq_pos_max s._ctx + 1 + batch.n_tokens >
      (E.llama_n_ctx s._ctx : Int)) :
    completionLoop E s =
      (Outcome.throws runtime_error.context_size_reached,
        { s with _nCtxUsed := E.llama_memory_seq_pos_max s._ctx + 1 }) ∧
    (completionLoop E s).2._ctx = s._ctx ∧
    (completionLoop E s).2.calls = s.calls ∧
    (completionLoop E s).2.calls.count EngineCall.decode = s.calls.count EngineCall.decode ∧
    (completionLoop E s).2.calls.count EngineCall.sample = s.calls.count EngineCall.sample := by
  have hchk : toUInt32 (E.llama_memory_seq_pos_max s._ctx + 1 + batch.n_tokens) >
      E.llama_n_ctx s._ctx % 4294967296 := by
    unfold toUInt32
    rw [Nat.mod_eq_of_lt hw]
    have h1 : (E.llama_memory_seq_pos_max s._ctx + 1 + batch.n_tokens) % 4294967296 =
        E.llama_memory_seq_pos_max s._ctx + 1 + batch.n_tokens :=
      Int.emod_eq_of_lt (by omega) (by omega)
    rw [h1]
    omega
  have h : completionLoop E s =
      (Outcome.throws runtime_error.context_size_reached,
        { s with _nCtxUsed := E.llama_memory_seq_pos_max s._ctx + 1 }) := by
    simp only [completionLoop, hb, hchk, if_true]
  rw [h]
  exact ⟨rfl, rfl, rfl, rfl, rfl⟩

theorem completionLoop_context_overflow_witness :
    (completionLoop (scriptEngine 2048 2047 0 [some hi])
      (sessionWith true [] (some ⟨TokenPtr.promptTokens, 3⟩) [] [])).1 =
        Outcome.throws runtime_error.context_size_reached ∧
    (completionLoop (scriptEngine 2048 2047 0 [some hi])
      (sessionWith true [] (some ⟨TokenPtr.promptTokens, 3⟩) [] [])).2.calls = [] := by
  have h := completionLoop_context_overflow (scriptEngine 2048 2047 0 [some hi])
    (sessionWith true [] (some ⟨TokenPtr.promptTokens, 3⟩) [] []) ⟨TokenPtr.promptTokens, 3⟩ rfl
    (by decide) (by decide) (by decide) (by decide) (by decide) (by decide)
  exact ⟨by rw [h.1], h.2.2.1⟩

end LLMInference

/-! ## C strings -/

theorem strdup_append_zero (r rest : Bytes) (h : ∀ x ∈ r, x ≠ (0 : Byte)) :
    strdup (r ++ 0 :: rest) = r := by
  induction r with
  | nil => simp [strdup]
  | cons b bs ih =>
    have hb : b ≠ 0 := h b (by simp)
    have := ih (fun x hx => h x (by simp [hx]))
    simp only [strdup] at this ⊢
    simp [List.takeWhile_cons, hb, this]

theorem strdup_of_no_zero (r : Bytes) (h : ∀ x ∈ r, x ≠ (0 : Byte)) : strdup r = r := by
  induction r with
  | nil => simp [strdup]
  | cons b bs ih =>
    have hb : b ≠ 0 := h b (by simp)
    have := ih (fun x hx => h x (by simp [hx]))
    simp only [strdup] at this ⊢
    simp [List.takeWhile_cons, hb, this]

theorem strdup_no_zero (r : Bytes) : ∀ x ∈ strdup r, x ≠ (0 : Byte) := by
  intro x hx
  have := List.mem_takeWhile_imp hx
  simpa using this

theorem strdup_strdup (r : Bytes) : strdup (strdup r) = strdup r :=
  strdup_of_no_zero _ (strdup_no_zero r)

theorem strdup_c_str (r : Bytes) : strdup (c_str r) = strdup r := by
  induction r with
  | nil => simp [strdup, c_str]
  | cons b bs ih =>
    simp only [strdup, c_str, List.cons_append, List.takeWhile_cons] at ih ⊢
    split
    · rw [ih]
    · rfl

namespace LLMInference

variable {σ : Type}

/-! ## Frame lemmas for `completionLoop` -/

theorem completionLoop_storeChats (E : Engine σ) (s : LLMInference σ) :
    (completionLoop E s).2._storeChats = s._storeChats := by
  unfold completionLoop
  simp only []
  repeat' split
  all_goals rfl

theorem completionLoop_messages (E : Engine σ) (s : LLMInference σ) :
    (completionLoop E s).2._messages = s._messages ∨
      (completionLoop E s).2._messages =
        s._messages ++ [⟨assistantRole, strdup s._response⟩] := by
  unfold completionLoop
  simp only []
  repeat' split
  all_goals first
    | exact Or.inl rfl
    | (right; simp [addChatMessage, strdup_strdup, strdup_c_str]; decide)

theorem startCompletion_messages (E : Engine σ) (s : LLMInference σ) (q : Bytes) :
    (startCompletion E s q)._messages = s._messages ++ [⟨userRole, strdup q⟩] := by
  have hrole : strdup userRole = userRole := by decide
  unfold startCompletion
  cases h : s._storeChats <;> simp [addChatMessage, hrole]

theorem startCompletion_storeChats (E : Engine σ) (s : LLMInference σ) (q : Bytes) :
    (startCompletion E s q)._storeChats = s._storeChats := by
  unfold startCompletion
  cases h : s._storeChats <;> simp [addChatMessage, h]

theorem startCompletion_response (E : Engine σ) (s : LLMInference σ) (q : Bytes) :
    (startCompletion E s q)._response = s._response := by
  unfold startCompletion
  cases h : s._storeChats <;> simp [addChatMessage]

theorem afterSteps_storeChats (E : Engine σ) (n : Nat) (s : LLMInference σ) :
    (afterSteps E n s)._storeChats = s._storeChats := by
  induction n generalizing s with
  | zero => rfl
  | succ n ih => rw [afterSteps, ih, completionLoop_storeChats]

theorem afterSteps_messages_of_nonEog (E : Engine σ) (n : Nat) (s : LLMInference σ)
    (h : NonEogRun E n s) : (afterSteps E n s)._messages = s._messages := by
  induction n generalizing s with
  | zero => rfl
  | succ n ih =>
    obtain ⟨h1, h2⟩ := h
    rw [afterSteps, ih _ h2, completionLoop_of_nonEog E s h1]
    split <;> rfl

theorem afterSteps_response_of_nonEog (E : Engine σ) (n : Nat) (s : LLMInference σ)
    (h : NonEogRun E n s) :
    (afterSteps E n s)._response = s._response ++ concatReturned (outputsOfSteps E n s) := by
  induction n generalizing s with
  | zero => simp [afterSteps, outputsOfSteps, concatReturned]
  | succ n ih =>
    obtain ⟨h1, h2⟩ := h
    rw [afterSteps, outputsOfSteps, ih _ h2, completionLoop_of_nonEog E s h1]
    split <;> simp [concatReturned, afterPiece]

/-- C4. From a freshly loaded session with persistence enabled, after
`startCompletion("hi")`, a `completionLoop` step whose first sample is an
end-of-generation token returns `"[EOG]"`, and when it has returned the chat
history is exactly the two messages user `"hi"`, assistant `""`, in this
order. -/
theorem first_sample_eog_history (E : Engine σ) (ctx : σ) (chatTemplate : Bytes)
    (h : SamplesEog E (startCompletion E (loadModel E ctx true chatTemplate) hi) true) :
    (completionLoop E (startCompletion E (loadModel E ctx true chatTemplate) hi)).1 =
      Outcome.returns eogMarker ∧
    (completionLoop E (startCompletion E (loadModel E ctx true chatTemplate) hi)).2._messages =
      [⟨userRole, hi⟩, ⟨assistantRole, []⟩] := by
  have hhi : strdup hi = hi := by decide
  have hempty : strdup (strdup (c_str [])) = [] := by decide
  rw [completionLoop_of_eog E _ h]
  refine ⟨rfl, ?_⟩
  simp only [startCompletion_messages, startCompletion_response, hhi]
  simp [loadModel, hempty]

theorem first_sample_eog_history_witness :
    (completionLoop (scriptEngine 2048 (-1) 0 [none])
      (startCompletion (scriptEngine 2048 (-1) 0 [none])
        (loadModel (scriptEngine 2048 (-1) 0 [none]) 0 true []) hi)).1 =
      Outcome.returns eogMarker ∧
    (completionLoop (scriptEngine 2048 (-1) 0 [none])
      (startCompletion (scriptEngine 2048 (-1) 0 [none])
        (loadModel (scriptEngine 2048 (-1) 0 [none]) 0 true []) hi)).2._messages =
      [⟨userRole, hi⟩, ⟨assistantRole, []⟩] :=
  first_sample_eog_history (scriptEngine 2048 (-1) 0 [none]) 0 []
    ⟨⟨⟨TokenPtr.promptTokens, 18⟩, by decide, by decide⟩, by decide, by decide⟩

theorem stopCompletion_messages_of_storeChats (s : LLMInference σ) (h : s._storeChats = true) :
    (stopCompletion s)._messages = s._messages ++ [⟨assistantRole, strdup s._response⟩] := by
  have hrole : strdup assistantRole = assistantRole := by decide
  simp [stopCompletion, h, addChatMessage, hrole, strdup_c_str]

/-- C5, as stated, fails: with persistence enabled, after `startCompletion`
and three successful non-EOG steps whose fragments are the bytes `41`, `00`
and `42`, the full response is `41 00 42` but `stopCompletion` appends the
assistant message with content `41`, not the full response byte for byte. -/
theorem stopCompletion_cuts_at_zero_byte :
    NonEogRun (scriptEngine 2048 (-1) 0 [some [0x41], some [0x00], some [0x42]]) 3
      (startCompletion (scriptEngine 2048 (-1) 0 [some [0x41], some [0x00], some [0x42]])
        (loadModel (scriptEngine 2048 (-1) 0 [some [0x41], some [0x00], some [0x42]]) 0 true []) hi) ∧
    (afterSteps (scriptEngine 2048 (-1) 0 [some [0x41], some [0x00], some [0x42]]) 3
      (startCompletion (scriptEngine 2048 (-1) 0 [some [0x41], some [0x00], some [0x42]])
        (loadModel (scriptEngine 2048 (-1) 0 [some [0x41], some [0x00], some [0x42]]) 0 true []) hi))._response =
      [0x41, 0x00, 0x42] ∧
    (stopCompletion (afterSteps (scriptEngine 2048 (-1) 0 [some [0x41], some [0x00], some [0x42]]) 3
      (startCompletion (scriptEngine 2048 (-1) 0 [some [0x41], some [0x00], some [0x42]])
        (loadModel (scriptEngine 2048 (-1) 0 [some [0x41], some [0x00], some [0x42]]) 0 true []) hi)))._messages =
      [⟨userRole, hi⟩, ⟨assistantRole, [0x41]⟩] ∧
    ¬ (stopCompletion (afterSteps (scriptEngine 2048 (-1) 0 [some [0x41], some [0x00], some [0x42]]) 3
      (startCompletion (scriptEngine 2048 (-1) 0 [some [0x41], some [0x00], some [0x42]])
        (loadModel (scriptEngine 2048 (-1) 0 [some [0x41], some [0x00], some [0x42]]) 0 true []) hi)))._messages =
      (afterSteps (scriptEngine 2048 (-1) 0 [some [0x41], some [0x00], some [0x42]]) 3
      (startCompletion (scriptEngine 2048 (-1) 0 [some [0x41], some [0x00], some [0x42]])
        (loadModel (scriptEngine 2048 (-1) 0 [some [0x41], some [0x00], some [0x42]]) 0 true []) hi))._messages ++
        [⟨assistantRole, (afterSteps (scriptEngine 2048 (-1) 0 [some [0x41], some [0x00], some [0x42]]) 3
      (startCompletion (scriptEngine 2048 (-1) 0 [some [0x41], some [0x00], some [0x42]])
        (loadModel (scriptEngine 2048 (-1) 0 [some [0x41], some [0x00], some [0x42]]) 0 true []) hi))._response⟩] := by
  refine ⟨⟨⟨⟨⟨TokenPtr.promptTokens, 18⟩, by decide, by decide⟩, by decide, by decide⟩,
    ⟨⟨⟨⟨TokenPtr.currToken, 1⟩, by decide, by decide⟩, by decide, by decide⟩,
    ⟨⟨⟨⟨TokenPtr.currToken, 1⟩, by decide, by decide⟩, by decide, by decide⟩, trivial⟩⟩⟩,
    by decide, by decide, by decide⟩

/-- C5, amended. With persistence enabled, in every state reached by
`startCompletion` followed by any number of successful non-EOG steps,
`stopCompletion` appends exactly one message to the end of the chat history
and changes no earlier message; the message is assistant `r`, where `r` is the
full response accumulated at that point cut at its first zero byte, hence the
full response byte for byte when it holds no zero byte; and the full response
is the response present at `startCompletion` followed by the outputs the
steps of this turn returned, in order. -/
theorem stopCompletion_persists_response (E : Engine σ) (s0 : LLMInference σ) (q : Bytes)
    (n : Nat) (hstore : s0._storeChats = true)
    (hrun : NonEogRun E n (startCompletion E s0 q)) :
    (stopCompletion (afterSteps E n (startCompletion E s0 q)))._messages =
      (afterSteps E n (startCompletion E s0 q))._messages ++
        [⟨assistantRole, strdup (afterSteps E n (startCompletion E s0 q))._response⟩] ∧
    ((∀ x ∈ (afterSteps E n (startCompletion E s0 q))._response, x ≠ (0 : Byte)) →
      strdup (afterSteps E n (startCompletion E s0 q))._response =
        (afterSteps E n (startCompletion E s0 q))._response) ∧
    (afterSteps E n (startCompletion E s0 q))._response =
      s0._response ++ concatReturned (outputsOfSteps E n (startCompletion E s0 q)) := by
  refine ⟨?_, strdup_of_no_zero _, ?_⟩
  · apply stopCompletion_messages_of_storeChats
    rw [afterSteps_storeChats, startCompletion_storeChats, hstore]
  · rw [afterSteps_response_of_nonEog E n _ hrun, startCompletion_response]

theorem stopCompletion_persists_response_witness :
    (stopCompletion (afterSteps (scriptEngine 2048 (-1) 0 [some [0xE4], some [0xB8, 0xAD], none]) 2
      (startCompletion (scriptEngine 2048 (-1) 0 [some [0xE4], some [0xB8, 0xAD], none])
        (loadModel (scriptEngine 2048 (-1) 0 [some [0xE4], some [0xB8, 0xAD], none]) 0 true [])
        hi)))._messages =
      (afterSteps (scriptEngine 2048 (-1) 0 [some [0xE4], some [0xB8, 0xAD], none]) 2
        (startCompletion (scriptEngine 2048 (-1) 0 [some [0xE4], some [0xB8, 0xAD], none])
          (loadModel (scriptEngine 2048 (-1) 0 [some [0xE4], some [0xB8, 0xAD], none]) 0 true [])
          hi))._messages ++
        [⟨assistantRole, strdup
          (afterSteps (scriptEngine 2048 (-1) 0 [some [0xE4], some [0xB8, 0xAD], none]) 2
            (startCompletion (scriptEngine 2048 (-1) 0 [some [0xE4], some [0xB8, 0xAD], none])
              (loadModel (scriptEngine 2048 (-1) 0 [some [0xE4], some [0xB8, 0xAD], none]) 0
                true []) hi))._response⟩] :=
  (stopCompletion_persists_response
    (scriptEngine 2048 (-1) 0 [some [0xE4], some [0xB8, 0xAD], none])
    (loadModel (scriptEngine 2048 (-1) 0 [some [0xE4], some [0xB8, 0xAD], none]) 0 true [])
    hi 2 rfl
    ⟨⟨⟨⟨TokenPtr.promptTokens, 18⟩, by decide, by decide⟩, by decide, by decide⟩,
      ⟨⟨⟨⟨TokenPtr.currToken, 1⟩, by decide, by decide⟩, by decide, by decide⟩, trivial⟩⟩).1

theorem afterSteps_messages_extend (E : Engine σ) (n : Nat) (s : LLMInference σ) :
    s._messages <+: (afterSteps E n s)._messages := by
  induction n generalizing s with
  | zero => exact List.prefix_refl _
  | succ n ih =>
    rw [afterSteps]
    refine List.IsPrefix.trans ?_ (ih _)
    rcases completionLoop_messages E s with h | h
    · rw [h]
    · rw [h]; exact List.prefix_append _ _

theorem stopCompletion_messages_of_not_storeChats (s : LLMInference σ)
    (h : s._storeChats = false) : (stopCompletion s)._messages = s._messages := by
  simp [stopCompletion, h]

/-- C6, as stated, fails: with persistence disabled, after a first turn
`startCompletion("a")`, `stopCompletion`, the call `startCompletion("b")`
leaves the two messages user `"a"`, user `"b"` in the chat history, not the
single message user `"b"`, and the prompt is rendered from both. -/
theorem startCompletion_keeps_history :
    (startCompletion (scriptEngine 2048 (-1) 0 [some [0x6F, 0x6B], none])
      (stopCompletion (startCompletion (scriptEngine 2048 (-1) 0 [some [0x6F, 0x6B], none])
        (loadModel (scriptEngine 2048 (-1) 0 [some [0x6F, 0x6B], none]) 0 false []) [0x61])) [0x62])._messages =
      [⟨userRole, [0x61]⟩, ⟨userRole, [0x62]⟩] ∧
    ¬ (startCompletion (scriptEngine 2048 (-1) 0 [some [0x6F, 0x6B], none])
      (stopCompletion (startCompletion (scriptEngine 2048 (-1) 0 [some [0x6F, 0x6B], none])
        (loadModel (scriptEngine 2048 (-1) 0 [some [0x6F, 0x6B], none]) 0 false []) [0x61])) [0x62])._messages =
      [⟨userRole, [0x62]⟩] ∧
    (startCompletion (scriptEngine 2048 (-1) 0 [some [0x6F, 0x6B], none])
      (stopCompletion (startCompletion (scriptEngine 2048 (-1) 0 [some [0x6F, 0x6B], none])
        (loadModel (scriptEngine 2048 (-1) 0 [some [0x6F, 0x6B], none]) 0 false []) [0x61])) [0x62])._promptTokens =
      (scriptEngine 2048 (-1) 0 [some [0x6F, 0x6B], none]).common_tokenize 0
        (scriptRender [⟨userRole, [0x61]⟩, ⟨userRole, [0x62]⟩] true) := by
  refine ⟨by decide, by decide, by decide⟩

/-- C6, amended. With persistence disabled, for every prior chat history `h`
and every query `q` (read as a C string), immediately after
`startCompletion(q)` the chat history is `h` followed by the message user `q`:
the earlier messages are kept, and the prompt of the turn is the chat template
applied to the whole of that history. -/
theorem startCompletion_appends_query (E : Engine σ) (s : LLMInference σ) (q : Bytes)
    (h : s._storeChats = false) :
    (startCompletion E s q)._messages = s._messages ++ [⟨userRole, strdup q⟩] ∧
    (startCompletion E s q)._promptTokens =
      E.common_tokenize s._ctx
        (E.common_chat_templates_apply s._ctx s._chatTemplate
          (s._messages ++ [⟨userRole, strdup q⟩])) := by
  have hrole : strdup userRole = userRole := by decide
  refine ⟨startCompletion_messages E s q, ?_⟩
  simp [startCompletion, h, addChatMessage, hrole]

theorem startCompletion_appends_query_witness :
    (startCompletion (scriptEngine 2048 (-1) 0 [some [0x6F, 0x6B], none])
      (sessionWith false [⟨userRole, [0x61]⟩] none [] []) [0x62])._messages =
      [⟨userRole, [0x61]⟩] ++ [⟨userRole, strdup [0x62]⟩] :=
  (startCompletion_appends_query (scriptEngine 2048 (-1) 0 [some [0x6F, 0x6B], none])
    (sessionWith false [⟨userRole, [0x61]⟩] none [] []) [0x62] rfl).1

/-- C7, the failing input. With persistence disabled, after
`startCompletion("hi")` and one step that returned `"ok"`, the step that
samples the end-of-generation token returns `"[EOG]"` and appends the message
assistant `"ok"` to the chat history, which it should have left unchanged. -/
theorem completionLoop_eog_appends_without_persistence :
    (afterSteps (scriptEngine 2048 (-1) 0 [some [0x6F, 0x6B], none]) 1
      (startCompletion (scriptEngine 2048 (-1) 0 [some [0x6F, 0x6B], none])
        (loadModel (scriptEngine 2048 (-1) 0 [some [0x6F, 0x6B], none]) 0 false []) hi))._storeChats = false ∧
    (afterSteps (scriptEngine 2048 (-1) 0 [some [0x6F, 0x6B], none]) 1
      (startCompletion (scriptEngine 2048 (-1) 0 [some [0x6F, 0x6B], none])
        (loadModel (scriptEngine 2048 (-1) 0 [some [0x6F, 0x6B], none]) 0 false []) hi))._messages = [⟨userRole, hi⟩] ∧
    (completionLoop (scriptEngine 2048 (-1) 0 [some [0x6F, 0x6B], none]) (afterSteps (scriptEngine 2048 (-1) 0 [some [0x6F, 0x6B], none]) 1
      (startCompletion (scriptEngine 2048 (-1) 0 [some [0x6F, 0x6B], none])
        (loadModel (scriptEngine 2048 (-1) 0 [some [0x6F, 0x6B], none]) 0 false []) hi))).1 = Outcome.returns eogMarker ∧
    (completionLoop (scriptEngine 2048 (-1) 0 [some [0x6F, 0x6B], none]) (afterSteps (scriptEngine 2048 (-1) 0 [some [0x6F, 0x6B], none]) 1
      (startCompletion (scriptEngine 2048 (-1) 0 [some [0x6F, 0x6B], none])
        (loadModel (scriptEngine 2048 (-1) 0 [some [0x6F, 0x6B], none]) 0 false []) hi))).2._messages =
      [⟨userRole, hi⟩, ⟨assistantRole, [0x6F, 0x6B]⟩] := by
  refine ⟨by decide, by decide, by decide, by decide⟩

/-- C8, as stated, fails: with persistence disabled, after
`startCompletion("hi")`, one step and `stopCompletion`, the chat history is
the message user `"hi"`, not empty. -/
theorem history_not_empty_after_stopCompletion :
    (stopCompletion (afterSteps (scriptEngine 2048 (-1) 0 [some [0x6F, 0x6B], none]) 1
      (startCompletion (scriptEngine 2048 (-1) 0 [some [0x6F, 0x6B], none])
        (loadModel (scriptEngine 2048 (-1) 0 [some [0x6F, 0x6B], none]) 0 false []) hi)))._messages = [⟨userRole, hi⟩] ∧
    ¬ (stopCompletion (afterSteps (scriptEngine 2048 (-1) 0 [some [0x6F, 0x6B], none]) 1
      (startCompletion (scriptEngine 2048 (-1) 0 [some [0x6F, 0x6B], none])
        (loadModel (scriptEngine 2048 (-1) 0 [some [0x6F, 0x6B], none]) 0 false []) hi)))._messages = [] := by
  refine ⟨by decide, by decide⟩

/-- C8, amended. With persistence disabled, for every query and every
sequence of steps, `stopCompletion` appends nothing and leaves the chat
history as the steps left it; after `startCompletion(q)`, those steps and
`stopCompletion`, the chat history still begins with the history before the
turn followed by the message user `q`, so it is not empty. -/
theorem stopCompletion_keeps_history (E : Engine σ) (s0 : LLMInference σ) (q : Bytes) (n : Nat)
    (h : s0._storeChats = false) :
    (stopCompletion (afterSteps E n (startCompletion E s0 q)))._messages =
      (afterSteps E n (startCompletion E s0 q))._messages ∧
    (s0._messages ++ [⟨userRole, strdup q⟩]) <+:
      (stopCompletion (afterSteps E n (startCompletion E s0 q)))._messages ∧
    (stopCompletion (afterSteps E n (startCompletion E s0 q)))._messages ≠ [] := by
  have hs : (afterSteps E n (startCompletion E s0 q))._storeChats = false := by
    rw [afterSteps_storeChats, startCompletion_storeChats, h]
  have hstop := stopCompletion_messages_of_not_storeChats _ hs
  have hpre : (s0._messages ++ [⟨userRole, strdup q⟩]) <+:
      (afterSteps E n (startCompletion E s0 q))._messages := by
    have := afterSteps_messages_extend E n (startCompletion E s0 q)
    rwa [startCompletion_messages] at this
  refine ⟨hstop, by rw [hstop]; exact hpre, ?_⟩
  rw [hstop]
  intro hnil
  rw [hnil] at hpre
  have := List.prefix_nil.1 hpre
  simp at this

theorem stopCompletion_keeps_history_witness :
    (stopCompletion (afterSteps (scriptEngine 2048 (-1) 0 [some [0x6F, 0x6B], none]) 1
      (startCompletion (scriptEngine 2048 (-1) 0 [some [0x6F, 0x6B], none])
        (loadModel (scriptEngine 2048 (-1) 0 [some [0x6F, 0x6B], none]) 0 false []) hi)))._messages =
      (afterSteps (scriptEngine 2048 (-1) 0 [some [0x6F, 0x6B], none]) 1
        (startCompletion (scriptEngine 2048 (-1) 0 [some [0x6F, 0x6B], none])
          (loadModel (scriptEngine 2048 (-1) 0 [some [0x6F, 0x6B], none]) 0 false []) hi))._messages :=
  (stopCompletion_keeps_history (scriptEngine 2048 (-1) 0 [some [0x6F, 0x6B], none])
    (loadModel (scriptEngine 2048 (-1) 0 [some [0x6F, 0x6B], none]) 0 false []) hi 1 rfl).1

/-- C9, the failing input. With fragments `E4`, then the end-of-generation
token: the first step returns `""` and holds `E4` in `_cacheResponseTokens`;
after the step that samples the end-of-generation token, and again after
`stopCompletion`, `_response` is empty but `_cacheResponseTokens` still holds
`E4`; in the next turn a step with fragment `"A"` returns `""` because the
stale byte is in front of it. -/
theorem pending_bytes_survive_the_turn :
    outputsOfSteps (scriptEngine 2048 (-1) 0 [some [0xE4], none, some [0x41]]) 2
      (startCompletion (scriptEngine 2048 (-1) 0 [some [0xE4], none, some [0x41]])
        (loadModel (scriptEngine 2048 (-1) 0 [some [0xE4], none, some [0x41]]) 0 true []) hi) =
      [Outcome.returns [], Outcome.returns eogMarker] ∧
    (afterSteps (scriptEngine 2048 (-1) 0 [some [0xE4], none, some [0x41]]) 2
      (startCompletion (scriptEngine 2048 (-1) 0 [some [0xE4], none, some [0x41]])
        (loadModel (scriptEngine 2048 (-1) 0 [some [0xE4], none, some [0x41]]) 0 true []) hi))._cacheResponseTokens = [0xE4] ∧
    (afterSteps (scriptEngine 2048 (-1) 0 [some [0xE4], none, some [0x41]]) 2
      (startCompletion (scriptEngine 2048 (-1) 0 [some [0xE4], none, some [0x41]])
        (loadModel (scriptEngine 2048 (-1) 0 [some [0xE4], none, some [0x41]]) 0 true []) hi))._response = [] ∧
    (stopCompletion (afterSteps (scriptEngine 2048 (-1) 0 [some [0xE4], none, some [0x41]]) 2
      (startCompletion (scriptEngine 2048 (-1) 0 [some [0xE4], none, some [0x41]])
        (loadModel (scriptEngine 2048 (-1) 0 [some [0xE4], none, some [0x41]]) 0 true []) hi)))._cacheResponseTokens = [0xE4] ∧
    (stopCompletion (afterSteps (scriptEngine 2048 (-1) 0 [some [0xE4], none, some [0x41]]) 2
      (startCompletion (scriptEngine 2048 (-1) 0 [some [0xE4], none, some [0x41]])
        (loadModel (scriptEngine 2048 (-1) 0 [some [0xE4], none, some [0x41]]) 0 true []) hi)))._response = [] ∧
    (completionLoop (scriptEngine 2048 (-1) 0 [some [0xE4], none, some [0x41]]) (startCompletion (scriptEngine 2048 (-1) 0 [some [0xE4], none, some [0x41]])
      (stopCompletion (afterSteps (scriptEngine 2048 (-1) 0 [some [0xE4], none, some [0x41]]) 2
      (startCompletion (scriptEngine 2048 (-1) 0 [some [0xE4], none, some [0x41]])
        (loadModel (scriptEngine 2048 (-1) 0 [some [0xE4], none, some [0x41]]) 0 true []) hi))) hi)).1 = Outcome.returns [] ∧
    (completionLoop (scriptEngine 2048 (-1) 0 [some [0xE4], none, some [0x41]]) (startCompletion (scriptEngine 2048 (-1) 0 [some [0xE4], none, some [0x41]])
      (stopCompletion (afterSteps (scriptEngine 2048 (-1) 0 [some [0xE4], none, some [0x41]]) 2
      (startCompletion (scriptEngine 2048 (-1) 0 [some [0xE4], none, some [0x41]])
        (loadModel (scriptEngine 2048 (-1) 0 [some [0xE4], none, some [0x41]]) 0 true []) hi))) hi)).2._cacheResponseTokens = [0xE4, 0x41] := by
  refine ⟨by decide, by decide, by decide, by decide, by decide, by decide, by decide⟩

end LLMInference

namespace llm_inference

variable {σ : Type}

theorem overwrite_length (buf written : Bytes) : (overwrite buf written).length = buf.length := by
  simp only [overwrite, List.length_append, List.length_take, List.length_drop]
  omega

theorem resize_length (buf : Bytes) (n : Nat) : (resize buf n).length = n := by
  simp only [resize, List.length_append, List.length_take, List.length_replicate]
  omega

theorem overwrite_take (buf written text : Bytes) (hw : written.length ≤ buf.length)
    (hfit : text.length ≤ buf.length)
    (htext : written.take text.length = text.take buf.length) :
    (overwrite buf written).take text.length = text := by
  have h1 : written.take buf.length = written := List.take_of_length_le hw
  have h2 : text.take buf.length = text := List.take_of_length_le hfit
  have h3 : text.length ≤ written.length := by
    have := congrArg List.length htext
    rw [h2, List.length_take] at this
    omega
  rw [overwrite, h1, List.take_append_of_le_length h3, htext, h2]

theorem slice_of_take (buf text head : Bytes) (rest : Bytes) (hlen : text.length ≤ buf.length)
    (htake : buf.take text.length = text) (hsplit : text = head ++ rest) :
    slice buf (Int.ofNat head.length) (Int.ofNat text.length) = some rest := by
  have hle : head.length ≤ text.length := by rw [hsplit]; simp
  have hcond : 0 ≤ Int.ofNat head.length ∧ Int.ofNat head.length ≤ Int.ofNat text.length ∧
      Int.ofNat text.length ≤ Int.ofNat buf.length := by
    simp only [Int.ofNat_eq_coe]
    omega
  rw [slice, if_pos hcond]
  show some ((buf.take text.length).drop head.length) = some rest
  rw [htake, hsplit]
  simp

theorem applyTemplateToBuffer_spec (E : Engine σ)
    (render : List llama_chat_message → Bool → Bytes) (hE : RendersBy E render)
    (s : llm_inference σ) (add_ass : Bool) :
    (applyTemplateToBuffer E s add_ass).1 = Int.ofNat (render s.messages add_ass).length ∧
    (applyTemplateToBuffer E s add_ass).2.formatted.length = s.formatted.length ∧
    (applyTemplateToBuffer E s add_ass).2.messages = s.messages ∧
    (applyTemplateToBuffer E s add_ass).2.prev_len = s.prev_len ∧
    ((render s.messages add_ass).length ≤ s.formatted.length →
      (applyTemplateToBuffer E s add_ass).2.formatted.take (render s.messages add_ass).length =
        render s.messages add_ass) := by
  obtain ⟨h1, h2, h3⟩ := hE s.ctx s.messages add_ass (some s.formatted.length)
  refine ⟨h1, overwrite_length _ _, rfl, rfl, ?_⟩
  intro hfit
  exact overwrite_take _ _ _ (by simpa using h2) hfit (by simpa using h3)

theorem start_completion_eq (E : Engine σ) (s : llm_inference σ) (q : Bytes)
    (hstore : s.store_chats = true) (s3 : llm_inference σ)
    (hs3 : s3 = { s with
      response_generation_time := 0
      response_num_tokens := 0
      messages := s.messages ++ [⟨userRole, strdup q⟩] })
    (second : Int × llm_inference σ)
    (hsecond : second =
      if (applyTemplateToBuffer E s3 true).1 >
          Int.ofNat (applyTemplateToBuffer E s3 true).2.formatted.length then
        applyTemplateToBuffer E
          { (applyTemplateToBuffer E s3 true).2 with
            formatted := resize (applyTemplateToBuffer E s3 true).2.formatted
              (applyTemplateToBuffer E s3 true).1.toNat } true
      else applyTemplateToBuffer E s3 true) :
    start_completion E s q =
      if second.1 < 0 then
        (Outcome.throws runtime_error.chat_apply_template_in_start_completion, second.2)
      else
        match slice second.2.formatted second.2.prev_len second.1 with
        | none => (Outcome.undefined, second.2)
        | some prompt =>
          (Outcome.returns prompt,
            { second.2 with
              batch := E.common_tokenize second.2.ctx prompt
              calls := second.2.calls ++ [EngineCall.tokenize] }) := by
  have hrole : strdup userRole = userRole := by decide
  subst hs3 hsecond
  cases s
  simp only at hstore
  subst hstore
  simp only [start_completion, add_chat_message, hrole, Bool.not_true, Bool.false_eq_true,
    if_false]

theorem stop_completion_prev_len (E : Engine σ)
    (render : List llama_chat_message → Bool → Bytes) (hE : RendersBy E render)
    (s0 : llm_inference σ) :
    (stop_completion E s0).1 = Outcome.returns () ∧
    (stop_completion E s0).2.prev_len =
      Int.ofNat (render (stop_completion E s0).2.messages false).length := by
  have hnn : ∀ (c : σ) (ms : List llama_chat_message),
      ¬ (E.llama_chat_apply_template c ms false none).1 < 0 := by
    intro c ms
    rw [(hE c ms false none).1]
    simp only [Int.ofNat_eq_coe]
    omega
  unfold stop_completion
  simp only []
  split_ifs with h1 h2 h2
  · exact absurd h2 (hnn _ _)
  · exact ⟨rfl, (hE _ _ false none).1⟩
  · exact absurd h2 (hnn _ _)
  · exact ⟨rfl, (hE _ _ false none).1⟩

/-- C10. Incremental renderer of `llm_inference.cpp`, for an engine whose
template call renders by a function `render`. `stop_completion` returns and
records in `prev_len` the length of the rendering, without the assistant tag,
of the history it leaves. With persistence enabled, for a history `h` whose
rendering without the tag has its length in `prev_len`, and a query `q` such
that this rendering is a prefix of the rendering of `h` extended by user `q`
with the tag: `start_completion(q)` succeeds, the text accounted for by
`prev_len` followed by the prompt it renders is the full rendering of the
extended history, and `prev_len` does not exceed the new rendered length. -/
theorem incremental_render_completes_full_render (E : Engine σ)
    (render : List llama_chat_message → Bool → Bytes) (hE : RendersBy E render) :
    (∀ s0 : llm_inference σ,
      (stop_completion E s0).1 = Outcome.returns () ∧
      (stop_completion E s0).2.prev_len =
        Int.ofNat (render (stop_completion E s0).2.messages false).length) ∧
    (∀ (s : llm_inference σ) (q : Bytes), s.store_chats = true →
      s.prev_len = Int.ofNat (render s.messages false).length →
      render s.messages false <+: render (s.messages ++ [⟨userRole, strdup q⟩]) true →
      ∃ prompt : Bytes,
        (start_completion E s q).1 = Outcome.returns prompt ∧
        (start_completion E s q).2.messages = s.messages ++ [⟨userRole, strdup q⟩] ∧
        render s.messages false ++ prompt =
          render (s.messages ++ [⟨userRole, strdup q⟩]) true ∧
        s.prev_len ≤ Int.ofNat (render (s.messages ++ [⟨userRole, strdup q⟩]) true).length) := by
  refine ⟨stop_completion_prev_len E render hE, ?_⟩
  intro s q hstore hprev hpre
  obtain ⟨t, ht⟩ := hpre
  have hle : (render s.messages false).length ≤
      (render (s.messages ++ [⟨userRole, strdup q⟩]) true).length := by
    rw [← ht]; simp
  -- the state handed to the renderer, and the outcome of its one or two calls
  obtain ⟨s3, hs3⟩ : ∃ s3 : llm_inference σ, s3 = { s with
      response_generation_time := 0
      response_num_tokens := 0
      messages := s.messages ++ [⟨userRole, strdup q⟩] } := ⟨_, rfl⟩
  have hm3 : s3.messages = s.messages ++ [⟨userRole, strdup q⟩] := by rw [hs3]
  have hp3 : s3.prev_len = s.prev_len := by rw [hs3]
  obtain ⟨second, hsecond⟩ : ∃ second : Int × llm_inference σ, second =
      if (applyTemplateToBuffer E s3 true).1 >
          Int.ofNat (applyTemplateToBuffer E s3 true).2.formatted.length then
        applyTemplateToBuffer E
          { (applyTemplateToBuffer E s3 true).2 with
            formatted := resize (applyTemplateToBuffer E s3 true).2.formatted
              (applyTemplateToBuffer E s3 true).1.toNat } true
      else applyTemplateToBuffer E s3 true := ⟨_, rfl⟩
  have hstart := start_completion_eq E s q hstore s3 hs3 second hsecond
  obtain ⟨f1, f2, f3, f4, f5⟩ := applyTemplateToBuffer_spec E render hE s3 true
  -- whichever call was the last, it returned the full length and left the full text
  have key : second.1 = Int.ofNat (render s3.messages true).length ∧
      second.2.messages = s3.messages ∧ second.2.prev_len = s3.prev_len ∧
      (render s3.messages true).length ≤ second.2.formatted.length ∧
      second.2.formatted.take (render s3.messages true).length = render s3.messages true := by
    by_cases hgrow : (applyTemplateToBuffer E s3 true).1 >
        Int.ofNat (applyTemplateToBuffer E s3 true).2.formatted.length
    · obtain ⟨sr, hsr⟩ : ∃ sr : llm_inference σ, sr =
          { (applyTemplateToBuffer E s3 true).2 with
            formatted := resize (applyTemplateToBuffer E s3 true).2.formatted
              (applyTemplateToBuffer E s3 true).1.toNat } := ⟨_, rfl⟩
      have hsec : second = applyTemplateToBuffer E sr true := by
        rw [hsecond, if_pos hgrow, hsr]
      have hrm : sr.messages = s3.messages := by rw [hsr]; exact f3
      have hrp : sr.prev_len = s3.prev_len := by rw [hsr]; exact f4
      have hrl : sr.formatted.length = (render s3.messages true).length := by
        rw [hsr]
        show (resize _ _).length = _
        rw [resize_length, f1]
        rfl
      obtain ⟨g1, g2, g3, g4, g5⟩ := applyTemplateToBuffer_spec E render hE sr true
      rw [hrm] at g1 g3 g5
      rw [hrl] at g2 g5
      rw [hrp] at g4
      rw [hsec]
      exact ⟨g1, g3, g4, by rw [g2], g5 (le_refl _)⟩
    · rw [if_neg hgrow] at hsecond
      have hfit : (render s3.messages true).length ≤ s3.formatted.length := by
        rw [f1, f2] at hgrow
        simp only [Int.ofNat_eq_coe] at hgrow
        omega
      rw [hsecond]
      exact ⟨f1, f3, f4, by rw [f2]; exact hfit, f5 hfit⟩
  obtain ⟨k1, k2, k3, k4, k5⟩ := key
  rw [hm3] at k1 k2 k4 k5
  have hslice : slice second.2.formatted second.2.prev_len second.1 = some t := by
    rw [k3, hp3, hprev, k1]
    exact slice_of_take _ _ _ t k4 k5 ht.symm
  have hnn : ¬ second.1 < 0 := by
    rw [k1]; simp only [Int.ofNat_eq_coe]; omega
  rw [hstart, if_neg hnn, hslice]
  refine ⟨t, rfl, k2, ht, ?_⟩
  rw [hprev]
  simp only [Int.ofNat_eq_coe]
  omega

theorem scriptEngine_rendersBy (window : Nat) (posMax decodeResult : Int)
    (script : List (Option Bytes)) :
    RendersBy (scriptEngine window posMax decodeResult script) scriptRender := by
  intro c ms add_ass length
  refine ⟨rfl, ?_, ?_⟩
  · show ((scriptRender ms add_ass).take (length.getD 0)).length ≤ length.getD 0
    rw [List.length_take]
    omega
  · show ((scriptRender ms add_ass).take (length.getD 0)).take (scriptRender ms add_ass).length =
      (scriptRender ms add_ass).take (length.getD 0)
    apply List.take_of_length_le
    rw [List.length_take]
    omega

theorem incremental_render_completes_full_render_witness :
    ∃ prompt : Bytes,
      (start_completion (scriptEngine 2048 (-1) 0 []) sessionAfterOneTurn hi).1 =
        Outcome.returns prompt ∧
      (start_completion (scriptEngine 2048 (-1) 0 []) sessionAfterOneTurn hi).2.messages =
        sessionAfterOneTurn.messages ++ [⟨userRole, strdup hi⟩] ∧
      scriptRender sessionAfterOneTurn.messages false ++ prompt =
        scriptRender (sessionAfterOneTurn.messages ++ [⟨userRole, strdup hi⟩]) true ∧
      sessionAfterOneTurn.prev_len ≤ Int.ofNat
        (scriptRender (sessionAfterOneTurn.messages ++ [⟨userRole, strdup hi⟩]) true).length :=
  (incremental_render_completes_full_render (scriptEngine 2048 (-1) 0 []) scriptRender
    (scriptEngine_rendersBy 2048 (-1) 0 [])).2 sessionAfterOneTurn hi rfl (by decide)
    ⟨[0x75, 0x73, 0x65, 0x72, 0x3A, 0x68, 0x69, 0x0A,
      0x61, 0x73, 0x73, 0x69, 0x73, 0x74, 0x61, 0x6E, 0x74, 0x3A], by decide⟩

end llm_inference

/-! ## Failure, counters, totality of the validator, append-only history -/

namespace LLMInference

variable {σ : Type}

/-- C11. When `llama_decode` reports a negative result, `completionLoop`
throws the decode error and returns no string; the only engine primitive it
has invoked is the decode (no sampler, no `common_token_to_piece`), and the
chat history, `_cacheResponseTokens`, `_response` and `_responseNumTokens` are
as they were. -/
theorem completionLoop_decode_failure (E : Engine σ) (s : LLMInference σ)
    (hchk : passesContextCheck E s) (hdec : (decodeOf E s).1 < 0) :
    completionLoop E s =
      (Outcome.throws runtime_error.llama_decode_failed,
        { s with
          _nCtxUsed := E.llama_memory_seq_pos_max s._ctx + 1
          _ctx := (decodeOf E s).2
          calls := s.calls ++ [EngineCall.decode] }) ∧
    (completionLoop E s).2.calls = s.calls ++ [EngineCall.decode] ∧
    (completionLoop E s).2._messages = s._messages ∧
    (completionLoop E s).2._cacheResponseTokens = s._cacheResponseTokens ∧
    (completionLoop E s).2._response = s._response ∧
    (completionLoop E s).2._responseNumTokens = s._responseNumTokens := by
  obtain ⟨batch, hb, hc⟩ := hchk
  have hdec2 : (E.llama_decode s._ctx (batchTokens s._promptTokens s._currToken batch)).1 < 0 := by
    simpa [decodeOf, hb] using hdec
  have hd : decodeOf E s = E.llama_decode s._ctx (batchTokens s._promptTokens s._currToken batch) := by
    simp [decodeOf, hb]
  have h : completionLoop E s =
      (Outcome.throws runtime_error.llama_decode_failed,
        { s with
          _nCtxUsed := E.llama_memory_seq_pos_max s._ctx + 1
          _ctx := (decodeOf E s).2
          calls := s.calls ++ [EngineCall.decode] }) := by
    simp only [completionLoop, hb, hc, hdec2, if_false, if_true, hd]
  rw [h]
  exact ⟨rfl, rfl, rfl, rfl, rfl, rfl⟩

theorem completionLoop_decode_failure_witness :
    (completionLoop (scriptEngine 2048 (-1) (-1) [some hi])
      (sessionWith true [] (some ⟨TokenPtr.promptTokens, 3⟩) [] [0xE4])).1 =
        Outcome.throws runtime_error.llama_decode_failed ∧
    (completionLoop (scriptEngine 2048 (-1) (-1) [some hi])
      (sessionWith true [] (some ⟨TokenPtr.promptTokens, 3⟩) [] [0xE4])).2.calls =
        [EngineCall.decode] := by
  have h := completionLoop_decode_failure (scriptEngine 2048 (-1) (-1) [some hi])
    (sessionWith true [] (some ⟨TokenPtr.promptTokens, 3⟩) [] [0xE4])
    ⟨⟨TokenPtr.promptTokens, 3⟩, rfl, by decide⟩ (by decide)
  exact ⟨by rw [h.1], h.2.1⟩

theorem completionLoop_numTokens_of_throws (E : Engine σ) (s : LLMInference σ)
    (e : runtime_error) (h : (completionLoop E s).1 = Outcome.throws e) :
    (completionLoop E s).2._responseNumTokens = s._responseNumTokens := by
  revert h
  unfold completionLoop
  simp only []
  repeat' split
  all_goals first
    | (intro _; rfl)
    | (intro h; simp at h)

theorem startCompletion_numTokens (E : Engine σ) (s : LLMInference σ) (q : Bytes) :
    (startCompletion E s q)._responseNumTokens = 0 := by
  unfold startCompletion
  cases h : s._storeChats <;> simp [addChatMessage]

theorem afterSteps_numTokens_of_nonEog (E : Engine σ) (n : Nat) (s : LLMInference σ)
    (h : NonEogRun E n s) :
    (afterSteps E n s)._responseNumTokens = s._responseNumTokens + n := by
  induction n generalizing s with
  | zero => rfl
  | succ n ih =>
    obtain ⟨h1, h2⟩ := h
    rw [afterSteps, ih _ h2, completionLoop_of_nonEog E s h1]
    split <;> simp [afterPiece] <;> omega

/-- C12. The token counter is per turn: after `startCompletion` followed by
`n` steps that each succeed and sample a non-EOG token, `_responseNumTokens`
is exactly `n`, whatever it was before `startCompletion`; a step that samples
an end-of-generation token, and a step that fails (throws), leave the counter
as it was. -/
theorem responseNumTokens_per_turn (E : Engine σ) :
    (∀ (s0 : LLMInference σ) (q : Bytes) (n : Nat),
      NonEogRun E n (startCompletion E s0 q) →
      (afterSteps E n (startCompletion E s0 q))._responseNumTokens = n) ∧
    (∀ s : LLMInference σ, SamplesEog E s true →
      (completionLoop E s).2._responseNumTokens = s._responseNumTokens) ∧
    (∀ (s : LLMInference σ) (e : runtime_error), (completionLoop E s).1 = Outcome.throws e →
      (completionLoop E s).2._responseNumTokens = s._responseNumTokens) := by
  refine ⟨?_, ?_, completionLoop_numTokens_of_throws E⟩
  · intro s0 q n h
    rw [afterSteps_numTokens_of_nonEog E n _ h, startCompletion_numTokens]
    omega
  · intro s h
    rw [completionLoop_of_eog E s h]

theorem responseNumTokens_per_turn_witness :
    (afterSteps (scriptEngine 2048 (-1) 0 [some [0xE4], some [0xB8, 0xAD], none]) 2
      (startCompletion (scriptEngine 2048 (-1) 0 [some [0xE4], some [0xB8, 0xAD], none])
        { sessionWith true [] none [] [] with _responseNumTokens := 7 }
        hi))._responseNumTokens = 2 :=
  (responseNumTokens_per_turn
    (scriptEngine 2048 (-1) 0 [some [0xE4], some [0xB8, 0xAD], none])).1
    { sessionWith true [] none [] [] with _responseNumTokens := 7 } hi 2
    ⟨⟨⟨⟨TokenPtr.promptTokens, 18⟩, by decide, by decide⟩, by decide, by decide⟩,
      ⟨⟨⟨⟨TokenPtr.currToken, 1⟩, by decide, by decide⟩, by decide, by decide⟩, trivial⟩⟩

end LLMInference

theorem utf8Loop_stops_at_zero (pre rest : Bytes) (k : Nat) :
    utf8Loop k (pre ++ 0 :: rest) = utf8Loop k (pre ++ [0]) := by
  induction pre generalizing k with
  | nil =>
    cases k with
    | zero => simp [utf8Loop]
    | succ k => simp [utf8Loop]
  | cons b bs ih =>
    cases k with
    | zero =>
      simp only [List.cons_append, utf8Loop, List.append_eq]
      rw [ih 0, ih 1, ih 2, ih 3]
    | succ k =>
      simp only [List.cons_append, utf8Loop, List.append_eq]
      rw [ih k]

/-- C13. The validator is total and never faults. The null pointer and the
empty buffer give true. For every NUL-terminated buffer, that is bytes `pre`
without a zero byte, the terminating zero byte, and whatever follows it in
memory: `_isValidUtf8` returns a boolean when the readable bytes end at the
terminator (it reads nothing past it), its result does not depend on what
follows the terminator, and when `pre` is not a concatenation of complete
units, as for a truncated multi-byte sequence at the end, the result is
false; `[0xE4,0xB8]` gives false. -/
theorem isValidUtf8_total :
    _isValidUtf8 none = some true ∧
    _isValidUtf8 (some (c_str [])) = some true ∧
    (∀ pre rest : Bytes, (∀ x ∈ pre, x ≠ (0 : Byte)) →
      (∃ b : Bool, _isValidUtf8 (some (pre ++ [0])) = some b) ∧
      _isValidUtf8 (some (pre ++ 0 :: rest)) = _isValidUtf8 (some (pre ++ [0])) ∧
      (¬ IsCompleteSequence pre → _isValidUtf8 (some (pre ++ [0])) = some false)) ∧
    _isValidUtf8 (some (c_str [0xE4, 0xB8])) = some false := by
  refine ⟨rfl, by decide, ?_, by decide⟩
  intro pre rest h0
  have hne : utf8Loop 0 (pre ++ [0]) ≠ none := utf8Loop_c_str_ne_none pre 0
  refine ⟨?_, utf8Loop_stops_at_zero pre rest 0, ?_⟩
  · cases h : utf8Loop 0 (pre ++ [0]) with
    | none => exact absurd h hne
    | some b => exact ⟨b, h⟩
  · intro hnot
    cases h : utf8Loop 0 (pre ++ [0]) with
    | none => exact absurd h hne
    | some b =>
      cases b with
      | false => exact h
      | true =>
        exfalso
        apply hnot
        obtain ⟨tail, rest2, h1, h2, -, h4⟩ := (utf8Loop_iff pre h0 0).1 h
        have : tail = [] := List.length_eq_zero.1 h2
        subst this
        simpa [h1] using h4

theorem isValidUtf8_total_witness :
    (∃ b : Bool, _isValidUtf8 (some ([0xF0, 0x9F, 0x98] ++ [0])) = some b) ∧
    _isValidUtf8 (some ([0xF0, 0x9F, 0x98] ++ 0 :: [0x80, 0x41])) =
      _isValidUtf8 (some ([0xF0, 0x9F, 0x98] ++ [0])) :=
  ⟨(isValidUtf8_total.2.2.1 [0xF0, 0x9F, 0x98] [0x80, 0x41] (by decide)).1,
   (isValidUtf8_total.2.2.1 [0xF0, 0x9F, 0x98] [0x80, 0x41] (by decide)).2.1⟩

namespace LLMInference

variable {σ : Type}

/-- C14. While persistence is enabled the chat history is append-only: after
`addChatMessage`, `startCompletion`, `completionLoop` and `stopCompletion`,
the history before the operation is an unchanged prefix of the history after
it. -/
theorem history_append_only (E : Engine σ) (s : LLMInference σ) (h : s._storeChats = true) :
    (∀ message role : Bytes, s._messages <+: (addChatMessage s message role)._messages) ∧
    (∀ q : Bytes, s._messages <+: (startCompletion E s q)._messages) ∧
    s._messages <+: (completionLoop E s).2._messages ∧
    s._messages <+: (stopCompletion s)._messages := by
  refine ⟨?_, ?_, ?_, ?_⟩
  · intro message role
    exact List.prefix_append _ _
  · intro q
    rw [startCompletion_messages]
    exact List.prefix_append _ _
  · rcases completionLoop_messages E s with h1 | h1
    · rw [h1]
    · rw [h1]; exact List.prefix_append _ _
  · rw [stopCompletion_messages_of_storeChats s h]
    exact List.prefix_append _ _

theorem history_append_only_witness :
    (sessionWith true [⟨userRole, hi⟩] none [0x6F, 0x6B] [])._messages <+:
      (stopCompletion (sessionWith true [⟨userRole, hi⟩] none [0x6F, 0x6B] []))._messages :=
  (history_append_only (scriptEngine 2048 (-1) 0 [])
    (sessionWith true [⟨userRole, hi⟩] none [0x6F, 0x6B] []) rfl).2.2.2

/-- C17, the failing input. With persistence enabled, from a freshly loaded
session: `startCompletion("hi")`, a step that returns `"ok"`, a step that
returns `"[EOG]"`, then `stopCompletion`. The history has been extended by
three messages, user `"hi"`, assistant `"ok"` and a second assistant message
with empty content, not by two. -/
theorem complete_turn_appends_two_assistant_messages :
    outputsOfSteps (scriptEngine 2048 (-1) 0 [some [0x6F, 0x6B], none]) 2
      (startCompletion (scriptEngine 2048 (-1) 0 [some [0x6F, 0x6B], none])
        (loadModel (scriptEngine 2048 (-1) 0 [some [0x6F, 0x6B], none]) 0 true []) hi) =
      [Outcome.returns [0x6F, 0x6B], Outcome.returns eogMarker] ∧
    (afterSteps (scriptEngine 2048 (-1) 0 [some [0x6F, 0x6B], none]) 2
      (startCompletion (scriptEngine 2048 (-1) 0 [some [0x6F, 0x6B], none])
        (loadModel (scriptEngine 2048 (-1) 0 [some [0x6F, 0x6B], none]) 0 true []) hi))._messages =
      [⟨userRole, hi⟩, ⟨assistantRole, [0x6F, 0x6B]⟩] ∧
    (stopCompletion (afterSteps (scriptEngine 2048 (-1) 0 [some [0x6F, 0x6B], none]) 2
      (startCompletion (scriptEngine 2048 (-1) 0 [some [0x6F, 0x6B], none])
        (loadModel (scriptEngine 2048 (-1) 0 [some [0x6F, 0x6B], none]) 0 true []) hi)))._messages =
      [⟨userRole, hi⟩, ⟨assistantRole, [0x6F, 0x6B]⟩, ⟨assistantRole, []⟩] := by
  refine ⟨by decide, by decide, by decide⟩

theorem afterSteps_buffers_of_nonEog (E : Engine σ) (n : Nat) (s : LLMInference σ)
    (h : NonEogRun E n s) :
    (afterSteps E n s)._response ++ (afterSteps E n s)._cacheResponseTokens =
      s._response ++ s._cacheResponseTokens ++ (fragmentsOfSteps E n s).flatten := by
  induction n generalizing s with
  | zero => simp [afterSteps, fragmentsOfSteps]
  | succ n ih =>
    obtain ⟨h1, h2⟩ := h
    rw [afterSteps, fragmentsOfSteps, ih _ h2, completionLoop_of_nonEog E s h1]
    split <;> simp [afterPiece]

/-- C18. Stream conservation. In a turn that starts with empty
`_cacheResponseTokens` and empty `_response`, after any number of successful
non-EOG steps, `_response` is the concatenation in order of the outputs
returned so far, and `_response ++ _cacheResponseTokens` is the concatenation
in order of all the fragments detokenized in the turn. -/
theorem stream_conservation (E : Engine σ) (s : LLMInference σ) (n : Nat)
    (hresp : s._response = []) (hcache : s._cacheResponseTokens = [])
    (hrun : NonEogRun E n s) :
    (afterSteps E n s)._response = concatReturned (outputsOfSteps E n s) ∧
    (afterSteps E n s)._response ++ (afterSteps E n s)._cacheResponseTokens =
      (fragmentsOfSteps E n s).flatten := by
  constructor
  · rw [afterSteps_response_of_nonEog E n s hrun, hresp, List.nil_append]
  · rw [afterSteps_buffers_of_nonEog E n s hrun, hresp, hcache]
    simp

theorem stream_conservation_witness :
    (afterSteps (scriptEngine 2048 (-1) 0 [some [0xE4], some [0xB8, 0xAD], none]) 2
      (startCompletion (scriptEngine 2048 (-1) 0 [some [0xE4], some [0xB8, 0xAD], none])
        (loadModel (scriptEngine 2048 (-1) 0 [some [0xE4], some [0xB8, 0xAD], none]) 0 true []) hi))._response =
      concatReturned (outputsOfSteps (scriptEngine 2048 (-1) 0 [some [0xE4], some [0xB8, 0xAD], none]) 2
      (startCompletion (scriptEngine 2048 (-1) 0 [some [0xE4], some [0xB8, 0xAD], none])
        (loadModel (scriptEngine 2048 (-1) 0 [some [0xE4], some [0xB8, 0xAD], none]) 0 true []) hi)) ∧
    (afterSteps (scriptEngine 2048 (-1) 0 [some [0xE4], some [0xB8, 0xAD], none]) 2
      (startCompletion (scriptEngine 2048 (-1) 0 [some [0xE4], some [0xB8, 0xAD], none])
        (loadModel (scriptEngine 2048 (-1) 0 [some [0xE4], some [0xB8, 0xAD], none]) 0 true []) hi))._response ++
      (afterSteps (scriptEngine 2048 (-1) 0 [some [0xE4], some [0xB8, 0xAD], none]) 2
      (startCompletion (scriptEngine 2048 (-1) 0 [some [0xE4], some [0xB8, 0xAD], none])
        (loadModel (scriptEngine 2048 (-1) 0 [some [0xE4], some [0xB8, 0xAD], none]) 0 true []) hi))._cacheResponseTokens =
      (fragmentsOfSteps (scriptEngine 2048 (-1) 0 [some [0xE4], some [0xB8, 0xAD], none]) 2
      (startCompletion (scriptEngine 2048 (-1) 0 [some [0xE4], some [0xB8, 0xAD], none])
        (loadModel (scriptEngine 2048 (-1) 0 [some [0xE4], some [0xB8, 0xAD], none]) 0 true []) hi)).flatten :=
  stream_conservation (scriptEngine 2048 (-1) 0 [some [0xE4], some [0xB8, 0xAD], none])
    (startCompletion (scriptEngine 2048 (-1) 0 [some [0xE4], some [0xB8, 0xAD], none])
        (loadModel (scriptEngine 2048 (-1) 0 [some [0xE4], some [0xB8, 0xAD], none]) 0 true []) hi) 2 rfl rfl
    ⟨⟨⟨⟨TokenPtr.promptTokens, 18⟩, by decide, by decide⟩, by decide, by decide⟩,
      ⟨⟨⟨⟨TokenPtr.currToken, 1⟩, by decide, by decide⟩, by decide, by decide⟩, trivial⟩⟩

end LLMInference

/-! ## The retry of the renderer -/

namespace llm_inference

variable {σ : Type}

theorem start_completion_unfold (E : Engine σ) (s : llm_inference σ) (q : Bytes) :
    start_completion E s q =
      if (if (firstApply E s q).1 > Int.ofNat (firstApply E s q).2.formatted.length then
            retryApply E s q else firstApply E s q).1 < 0 then
        (Outcome.throws runtime_error.chat_apply_template_in_start_completion,
          (if (firstApply E s q).1 > Int.ofNat (firstApply E s q).2.formatted.length then
            retryApply E s q else firstApply E s q).2)
      else
        match slice
          (if (firstApply E s q).1 > Int.ofNat (firstApply E s q).2.formatted.length then
            retryApply E s q else firstApply E s q).2.formatted
          (if (firstApply E s q).1 > Int.ofNat (firstApply E s q).2.formatted.length then
            retryApply E s q else firstApply E s q).2.prev_len
          (if (firstApply E s q).1 > Int.ofNat (firstApply E s q).2.formatted.length then
            retryApply E s q else firstApply E s q).1 with
        | none => (Outcome.undefined,
            (if (firstApply E s q).1 > Int.ofNat (firstApply E s q).2.formatted.length then
              retryApply E s q else firstApply E s q).2)
        | some prompt =>
          (Outcome.returns prompt,
            { (if (firstApply E s q).1 > Int.ofNat (firstApply E s q).2.formatted.length then
                retryApply E s q else firstApply E s q).2 with
              batch := E.common_tokenize
                (if (firstApply E s q).1 > Int.ofNat (firstApply E s q).2.formatted.length then
                  retryApply E s q else firstApply E s q).2.ctx prompt
              calls :=
                (if (firstApply E s q).1 > Int.ofNat (firstApply E s q).2.formatted.length then
                  retryApply E s q else firstApply E s q).2.calls ++ [EngineCall.tokenize] }) :=
  rfl

end llm_inference

namespace llm_inference

variable {σ : Type}

theorem queryAppended_calls (s : llm_inference σ) (q : Bytes) :
    (queryAppended s q).calls = s.calls ∧ (queryAppended s q).batch = s.batch := by
  unfold queryAppended add_chat_message
  cases s.store_chats <;> exact ⟨rfl, rfl⟩

theorem retryApply_calls (E : Engine σ) (s : llm_inference σ) (q : Bytes) :
    (retryApply E s q).2.calls = s.calls ++ [EngineCall.chat_template, EngineCall.chat_template] ∧
    (retryApply E s q).2.batch = s.batch := by
  have h := queryAppended_calls s q
  constructor
  · show ((queryAppended s q).calls ++ [EngineCall.chat_template]) ++ [EngineCall.chat_template] = _
    rw [h.1]
    simp
  · show (queryAppended s q).batch = _
    exact h.2

/-- C16, as stated, fails: with a scratch buffer of two bytes and an engine
whose template call reports 4 bytes and then, on the retry into the buffer
grown to 4 bytes, 8 bytes, `start_completion` does not fail with the
templating error: it goes on to take the range of 8 bytes out of the buffer of
4, which is undefined behaviour. -/
theorem retry_still_larger_is_not_detected :
    (firstApply (scriptedTemplateEngine [4, 8]) (sessionBeforeFirstTurn 0) hi).1 >
      Int.ofNat (firstApply (scriptedTemplateEngine [4, 8]) (sessionBeforeFirstTurn 0) hi).2.formatted.length ∧
    (retryApply (scriptedTemplateEngine [4, 8]) (sessionBeforeFirstTurn 0) hi).1 >
      Int.ofNat (retryApply (scriptedTemplateEngine [4, 8]) (sessionBeforeFirstTurn 0) hi).2.formatted.length ∧
    (start_completion (scriptedTemplateEngine [4, 8]) (sessionBeforeFirstTurn 0) hi).1 = Outcome.undefined ∧
    ¬ (start_completion (scriptedTemplateEngine [4, 8]) (sessionBeforeFirstTurn 0) hi).1 =
      Outcome.throws runtime_error.chat_apply_template_in_start_completion := by
  refine ⟨by decide, by decide, by decide, by decide⟩

/-- C16, amended. In `start_completion` of `llm_inference.cpp`, when the
template call reports a length larger than the scratch buffer, the buffer is
grown to exactly that length and the template is applied exactly one more
time; when that retry reports a negative length, `start_completion` throws
the templating error and neither slices the buffer nor tokenizes a prompt
(the batch is as it was and no tokenizer call is recorded). -/
theorem start_completion_retries_once (E : Engine σ) (s : llm_inference σ) (q : Bytes)
    (hgrow : (firstApply E s q).1 > Int.ofNat (firstApply E s q).2.formatted.length) :
    Int.ofNat (grownBuffer E s q).formatted.length = (firstApply E s q).1 ∧
    (start_completion E s q).2.calls.count EngineCall.chat_template =
      s.calls.count EngineCall.chat_template + 2 ∧
    ((retryApply E s q).1 < 0 →
      (start_completion E s q).1 =
        Outcome.throws runtime_error.chat_apply_template_in_start_completion ∧
      (start_completion E s q).2.calls =
        s.calls ++ [EngineCall.chat_template, EngineCall.chat_template] ∧
      (start_completion E s q).2.batch = s.batch) := by
  obtain ⟨hc, hb⟩ := retryApply_calls E s q
  refine ⟨?_, ?_, ?_⟩
  · show Int.ofNat (resize _ _).length = _
    rw [resize_length]
    have hpos : 0 ≤ (firstApply E s q).1 := by
      have : (0 : Int) ≤ Int.ofNat (firstApply E s q).2.formatted.length := Int.ofNat_nonneg _
      omega
    simpa using Int.toNat_of_nonneg hpos
  · rw [start_completion_unfold]
    simp only [if_pos hgrow]
    split
    · simp [hc, List.count_append]
    · split
      · simp [hc, List.count_append]
      · simp [hc, List.count_append]
  · intro hneg
    rw [start_completion_unfold]
    simp only [if_pos hgrow, if_pos hneg]
    exact ⟨trivial, hc, hb⟩

theorem start_completion_retries_once_witness :
    Int.ofNat (grownBuffer (scriptedTemplateEngine [4, -1]) (sessionBeforeFirstTurn 0)
      hi).formatted.length =
      (firstApply (scriptedTemplateEngine [4, -1]) (sessionBeforeFirstTurn 0) hi).1 ∧
    (start_completion (scriptedTemplateEngine [4, -1]) (sessionBeforeFirstTurn 0) hi).1 =
      Outcome.throws runtime_error.chat_apply_template_in_start_completion ∧
    (start_completion (scriptedTemplateEngine [4, -1]) (sessionBeforeFirstTurn 0) hi).2.batch =
      (sessionBeforeFirstTurn 0).batch :=
  ⟨(start_completion_retries_once (scriptedTemplateEngine [4, -1]) (sessionBeforeFirstTurn 0) hi
      (by decide)).1,
   ((start_completion_retries_once (scriptedTemplateEngine [4, -1]) (sessionBeforeFirstTurn 0) hi
      (by decide)).2.2 (by decide)).1,
   ((start_completion_retries_once (scriptedTemplateEngine [4, -1]) (sessionBeforeFirstTurn 0) hi
      (by decide)).2.2 (by decide)).2.2⟩

end llm_inference

/-! ## The text splitter -/

namespace RecursiveTextSplitter

theorem findFrom_bounds (delimiter : Bytes) (rest : Bytes) (pos e : Nat)
    (h : findFrom delimiter rest pos = some e) :
    ∃ j, e = pos + j ∧ j + delimiter.length ≤ rest.length := by
  induction rest generalizing pos with
  | nil =>
    simp only [findFrom] at h
    split at h
    · rename_i hp
      have hpre := (List.isPrefixOf_iff_prefix).1 hp
      have := hpre.length_le
      simp only [Option.some.injEq] at h
      exact ⟨0, by omega, by simpa using this⟩
    · simp at h
  | cons b rest ih =>
    simp only [findFrom] at h
    split at h
    · rename_i hp
      have hpre := (List.isPrefixOf_iff_prefix).1 hp
      have := hpre.length_le
      simp only [Option.some.injEq] at h
      exact ⟨0, by omega, by simpa using this⟩
    · obtain ⟨j, hj, hlen⟩ := ih (pos + 1) h
      exact ⟨j + 1, by omega, by simp only [List.length_cons]; omega⟩

theorem find_bounds (text delimiter : Bytes) (pos e : Nat)
    (h : find text delimiter pos = some e) : pos ≤ e ∧ e + delimiter.length ≤ text.length := by
  unfold find at h
  split at h
  · simp at h
  · rename_i hle
    obtain ⟨j, hj, hlen⟩ := findFrom_bounds delimiter _ pos e h
    rw [List.length_drop] at hlen
    omega

theorem splitLoop_succ (text delimiter : Bytes) (fuel : Nat) :
    ∀ (posStart : Nat) (tokens r : List Bytes),
      splitLoop text delimiter fuel posStart tokens = some r →
      splitLoop text delimiter (fuel + 1) posStart tokens = some r := by
  induction fuel with
  | zero => intro posStart tokens r h; simp [splitLoop] at h
  | succ fuel ih =>
    intro posStart tokens r h
    rw [splitLoop] at h ⊢
    cases hf : find text delimiter posStart with
    | none => rw [hf] at h; exact h
    | some posEnd =>
      rw [hf] at h
      exact ih _ _ _ h

theorem splitLoop_terminates (text delimiter : Bytes) (hd : delimiter ≠ []) (fuel : Nat) :
    ∀ (posStart : Nat) (tokens : List Bytes), text.length - posStart < fuel →
      ∃ r, splitLoop text delimiter fuel posStart tokens = some r := by
  have hlen : 0 < delimiter.length := List.length_pos.2 hd
  induction fuel with
  | zero => intro posStart tokens h; omega
  | succ fuel ih =>
    intro posStart tokens h
    rw [splitLoop]
    cases hf : find text delimiter posStart with
    | none => exact ⟨_, rfl⟩
    | some posEnd =>
      obtain ⟨h1, h2⟩ := find_bounds text delimiter posStart posEnd hf
      exact ih _ _ (by omega)

theorem splitWithDelimiter_terminates (text delimiter : Bytes) (hd : delimiter ≠ []) :
    ∃ r, splitWithDelimiter (text.length + 1) text delimiter = some r :=
  splitLoop_terminates text delimiter hd _ 0 [] (by omega)

theorem splitWithDelimiter_succ (fuel : Nat) (text delimiter : Bytes) (r : List Bytes)
    (h : splitWithDelimiter fuel text delimiter = some r) :
    splitWithDelimiter (fuel + 1) text delimiter = some r :=
  splitLoop_succ text delimiter fuel 0 [] r h

theorem splitParts_succ (fuel : Nat) (delimiter : Bytes) (chunkSize : Nat) :
    ∀ (parts r : List Bytes), splitParts fuel delimiter chunkSize parts = some r →
      splitParts (fuel + 1) delimiter chunkSize parts = some r := by
  intro parts
  induction parts with
  | nil => intro r h; simpa [splitParts] using h
  | cons part parts ih =>
    intro r h
    rw [splitParts] at h ⊢
    by_cases hbig : part.length > chunkSize
    · rw [if_pos hbig] at h ⊢
      cases ht : splitWithDelimiter fuel part delimiter with
      | none => rw [ht] at h; simp at h
      | some tokens =>
        rw [ht] at h
        rw [splitWithDelimiter_succ fuel part delimiter tokens ht]
        cases hl : splitParts fuel delimiter chunkSize parts with
        | none => rw [hl] at h; simp at h
        | some later =>
          rw [hl] at h
          rw [ih later hl]
          exact h
    · rw [if_neg hbig] at h ⊢
      cases hl : splitParts fuel delimiter chunkSize parts with
      | none => rw [hl] at h; simp at h
      | some later =>
        rw [hl] at h
        rw [ih later hl]
        exact h

theorem splitFrom_succ (fuel : Nat) (chunkSize : Nat) :
    ∀ (delimiters parts r : List Bytes), splitFrom fuel chunkSize delimiters parts = some r →
      splitFrom (fuel + 1) chunkSize delimiters parts = some r := by
  intro delimiters
  induction delimiters with
  | nil => intro parts r h; simpa [splitFrom] using h
  | cons d ds ih =>
    intro parts r h
    rw [splitFrom] at h ⊢
    cases hs : splitParts fuel d chunkSize parts with
    | none => rw [hs] at h; simp at h
    | some sp =>
      rw [hs] at h
      rw [splitParts_succ fuel d chunkSize parts sp hs]
      exact ih _ _ h

theorem splitWithDelimiter_mono (text delimiter : Bytes) (r : List Bytes) (f f' : Nat)
    (hle : f ≤ f') (h : splitWithDelimiter f text delimiter = some r) :
    splitWithDelimiter f' text delimiter = some r := by
  induction f', hle using Nat.le_induction with
  | base => exact h
  | succ n _ ih => exact splitWithDelimiter_succ n text delimiter r ih

theorem splitParts_mono (delimiter : Bytes) (chunkSize : Nat) (parts r : List Bytes) (f f' : Nat)
    (hle : f ≤ f') (h : splitParts f delimiter chunkSize parts = some r) :
    splitParts f' delimiter chunkSize parts = some r := by
  induction f', hle using Nat.le_induction with
  | base => exact h
  | succ n _ ih => exact splitParts_succ n delimiter chunkSize parts r ih

theorem splitFrom_mono (chunkSize : Nat) (delimiters parts r : List Bytes) (f f' : Nat)
    (hle : f ≤ f') (h : splitFrom f chunkSize delimiters parts = some r) :
    splitFrom f' chunkSize delimiters parts = some r := by
  induction f', hle using Nat.le_induction with
  | base => exact h
  | succ n _ ih => exact splitFrom_succ n chunkSize delimiters parts r ih

end RecursiveTextSplitter

namespace RecursiveTextSplitter

theorem splitParts_terminates (delimiter : Bytes) (hd : delimiter ≠ []) (chunkSize : Nat) :
    ∀ parts : List Bytes, ∃ fuel r, splitParts fuel delimiter chunkSize parts = some r := by
  intro parts
  induction parts with
  | nil => exact ⟨0, [], rfl⟩
  | cons part parts ih =>
    obtain ⟨f1, later, h1⟩ := ih
    obtain ⟨tokens, h2⟩ := splitWithDelimiter_terminates part delimiter hd
    have h1' := splitParts_mono delimiter chunkSize parts later f1 (max f1 (part.length + 1))
      (le_max_left _ _) h1
    have h2' := splitWithDelimiter_mono part delimiter tokens (part.length + 1)
      (max f1 (part.length + 1)) (le_max_right _ _) h2
    by_cases hbig : part.length > chunkSize
    · exact ⟨max f1 (part.length + 1), tokens ++ later, by
        rw [splitParts, if_pos hbig, h2', h1']⟩
    · exact ⟨max f1 (part.length + 1), part :: later, by
        rw [splitParts, if_neg hbig, h1']⟩

theorem splitFrom_terminates (chunkSize : Nat) :
    ∀ (delimiters : List Bytes), (∀ d ∈ delimiters, d ≠ []) → ∀ parts : List Bytes,
      ∃ fuel r, splitFrom fuel chunkSize delimiters parts = some r := by
  intro delimiters
  induction delimiters with
  | nil => intro _ parts; exact ⟨0, parts, rfl⟩
  | cons d ds ih =>
    intro hne parts
    obtain ⟨f1, sp, h1⟩ := splitParts_terminates d (hne d (by simp)) chunkSize parts
    obtain ⟨f2, r, h2⟩ := ih (fun x hx => hne x (by simp [hx])) (mergeSplitParts d chunkSize sp)
    refine ⟨max f1 f2, r, ?_⟩
    rw [splitFrom, splitParts_mono d chunkSize parts sp f1 (max f1 f2) (le_max_left _ _) h1]
    exact splitFrom_mono chunkSize ds _ r f2 (max f1 f2) (le_max_right _ _) h2

theorem mergeLoop_lengths (delimiter : Bytes) (chunkSize : Nat) :
    ∀ (rest : List Bytes) (prevPart : Bytes) (acc : List Bytes),
      (∀ c ∈ acc, chunkSize ≤ c.length) →
      ∀ c ∈ mergeLoop delimiter chunkSize prevPart rest acc, chunkSize ≤ c.length := by
  intro rest
  induction rest with
  | nil => intro prevPart acc hacc; simpa [mergeLoop] using hacc
  | cons part rest ih =>
    intro prevPart acc hacc
    rw [mergeLoop]
    split
    · exact ih _ _ hacc
    · rename_i hge
      apply ih
      intro c hc
      rcases List.mem_append.1 hc with hc | hc
      · exact hacc c hc
      · simp only [List.mem_singleton] at hc
        rw [hc]
        omega

theorem mergeSplitParts_lengths (delimiter : Bytes) (chunkSize : Nat) (sp : List Bytes) :
    ∀ c ∈ mergeSplitParts delimiter chunkSize sp, chunkSize ≤ c.length := by
  unfold mergeSplitParts
  split
  · exact mergeLoop_lengths delimiter chunkSize _ _ [] (by simp)
  · simp

theorem splitFrom_lengths (fuel chunkSize : Nat) :
    ∀ (delimiters parts r : List Bytes), (∀ c ∈ parts, chunkSize ≤ c.length) →
      splitFrom fuel chunkSize delimiters parts = some r → ∀ c ∈ r, chunkSize ≤ c.length := by
  intro delimiters
  induction delimiters with
  | nil =>
    intro parts r hparts h
    simp only [splitFrom, Option.some.injEq] at h
    rw [← h]
    exact hparts
  | cons d ds ih =>
    intro parts r _ h
    rw [splitFrom] at h
    cases hs : splitParts fuel d chunkSize parts with
    | none => rw [hs] at h; simp at h
    | some sp =>
      rw [hs] at h
      exact ih _ r (mergeSplitParts_lengths d chunkSize sp) h

theorem splitFrom_nil_parts (fuel chunkSize : Nat) :
    ∀ delimiters : List Bytes, splitFrom fuel chunkSize delimiters [] = some [] := by
  intro delimiters
  induction delimiters with
  | nil => rfl
  | cons d ds ih =>
    rw [splitFrom]
    simp only [splitParts, mergeSplitParts]
    exact ih

/-- C19. For a splitter configured with at least one delimiter and a text
whose length is at most `chunkSize`, `split(text, chunkSize)` returns the
empty list: the text itself is not returned as a chunk. No call of
`splitWithDelimiter` is made, so the result does not depend on `fuel`. -/
theorem split_short_text_is_empty (fuel : Nat) (_delimiters : List Bytes) (text : Bytes)
    (chunkSize : Nat) (hd : _delimiters ≠ []) (hlen : text.length ≤ chunkSize) :
    split fuel _delimiters text chunkSize = some [] := by
  cases _delimiters with
  | nil => exact absurd rfl hd
  | cons d ds =>
    have hnot : ¬ text.length > chunkSize := by omega
    unfold split
    rw [splitFrom]
    simp only [splitParts, if_neg hnot, mergeSplitParts]
    exact splitFrom_nil_parts fuel chunkSize ds

theorem split_short_text_is_empty_witness :
    split 0 whiteSpaceDelimiters [0x68, 0x69, 0x20, 0x68, 0x69] 5 = some [] :=
  split_short_text_is_empty 0 whiteSpaceDelimiters [0x68, 0x69, 0x20, 0x68, 0x69] 5
    (by decide) (by decide)

/-- C20. For a splitter configured with a non-empty list of non-empty
delimiters, every text and every `chunkSize`: `split(text, chunkSize)`
returns (with enough fuel every loop ends, and more fuel gives the same
list), and each chunk of the list it returns has length at least
`chunkSize`. -/
theorem split_chunks_at_least_chunkSize (_delimiters : List Bytes) (text : Bytes)
    (chunkSize : Nat) (hd : _delimiters ≠ []) (hne : ∀ d ∈ _delimiters, d ≠ []) :
    (∃ (fuel : Nat) (chunks : List Bytes),
      ∀ fuel', fuel ≤ fuel' → split fuel' _delimiters text chunkSize = some chunks) ∧
    (∀ (fuel : Nat) (chunks : List Bytes), split fuel _delimiters text chunkSize = some chunks →
      ∀ c ∈ chunks, chunkSize ≤ c.length) := by
  constructor
  · obtain ⟨fuel, chunks, h⟩ := splitFrom_terminates chunkSize _delimiters hne [text]
    exact ⟨fuel, chunks, fun fuel' hle =>
      splitFrom_mono chunkSize _delimiters [text] chunks fuel fuel' hle h⟩
  · intro fuel chunks h
    cases _delimiters with
    | nil => exact absurd rfl hd
    | cons d ds =>
      unfold split at h
      rw [splitFrom] at h
      cases hs : splitParts fuel d chunkSize [text] with
      | none => rw [hs] at h; simp at h
      | some sp =>
        rw [hs] at h
        exact splitFrom_lengths fuel chunkSize ds _ chunks
          (mergeSplitParts_lengths d chunkSize sp) h

theorem split_chunks_at_least_chunkSize_witness :
    split 13 [[0x20]] [0x61, 0x20, 0x62, 0x62, 0x20, 0x63, 0x0A, 0x64, 0x64, 0x64, 0x20, 0x65] 4 =
      some [[0x61, 0x20, 0x62, 0x62], [0x62, 0x62, 0x20, 0x63, 0x0A, 0x64, 0x64, 0x64],
        [0x63, 0x0A, 0x64, 0x64, 0x64, 0x20, 0x65]] ∧
    ∀ c ∈ [[0x61, 0x20, 0x62, 0x62], [0x62, 0x62, 0x20, 0x63, 0x0A, 0x64, 0x64, 0x64],
        [0x63, 0x0A, 0x64, 0x64, 0x64, 0x20, 0x65]], 4 ≤ List.length (c : Bytes) :=
  ⟨by decide,
   (split_chunks_at_least_chunkSize [[0x20]]
    [0x61, 0x20, 0x62, 0x62, 0x20, 0x63, 0x0A, 0x64, 0x64, 0x64, 0x20, 0x65] 4
    (by decide) (by decide)).2 13 _ (by decide)⟩

end RecursiveTextSplitter

/-! ## The vector store -/

namespace VectorDB

variable {α : Type}

theorem push_perm [LinearOrder α] (top_k : TopK α) (x : α × VectorDBRecord α) :
    (push top_k x).Perm (x :: top_k) := by
  induction top_k with
  | nil => exact List.Perm.refl _
  | cons y ys ih =>
    rw [push]
    split
    · exact List.Perm.refl _
    · exact (List.Perm.cons y ih).trans (List.Perm.swap x y ys)

theorem push_length [LinearOrder α] (top_k : TopK α) (x : α × VectorDBRecord α) :
    (push top_k x).length = top_k.length + 1 := by
  have := (push_perm top_k x).length_eq
  simpa using this

theorem mem_push [LinearOrder α] (top_k : TopK α) (x z : α × VectorDBRecord α) :
    z ∈ push top_k x ↔ z = x ∨ z ∈ top_k := by
  rw [(push_perm top_k x).mem_iff, List.mem_cons]

theorem push_sorted [LinearOrder α] (top_k : TopK α) (x : α × VectorDBRecord α)
    (h : top_k.Pairwise (fun a b => a.1 ≤ b.1)) :
    (push top_k x).Pairwise (fun a b => a.1 ≤ b.1) := by
  induction top_k with
  | nil => simp [push]
  | cons y ys ih =>
    rw [push]
    rw [List.pairwise_cons] at h
    split
    · rename_i hlt
      refine List.pairwise_cons.2 ⟨?_, List.pairwise_cons.2 h⟩
      intro z hz
      rcases List.mem_cons.1 hz with rfl | hz
      · exact le_of_lt hlt
      · exact le_trans (le_of_lt hlt) (h.1 z hz)
    · rename_i hge
      refine List.pairwise_cons.2 ⟨?_, ih h.2⟩
      intro z hz
      rcases (mem_push ys x z).1 hz with rfl | hz
      · exact not_lt.1 hge
      · exact h.1 z hz

theorem drain_eq (top_k : TopK α) (result : List (VectorDBRecord α)) :
    drain top_k result = result ++ top_k.map Prod.snd := by
  induction top_k generalizing result with
  | nil => simp [drain]
  | cons t rest ih => simp [drain, ih]

end VectorDB

namespace VectorDB

variable {α : Type}

theorem visit_invariant [LinearOrder α] (F : FloatOps α) (query : Fin EMBEDDING_DIM → α)
    (queryMag : α) (k : Int) (hK : 1 ≤ toSizeT k) (top_k : TopK α)
    (dropped visited : List (VectorDBRecord α)) (record : VectorDBRecord α)
    (h : LoopInvariant (similarityTo F query queryMag) (toSizeT k) top_k dropped visited) :
    ∃ (next : TopK α) (dropped' : List (VectorDBRecord α)),
      visit F query queryMag k top_k record = some next ∧
      LoopInvariant (similarityTo F query queryMag) (toSizeT k) next dropped'
        (visited ++ [record]) := by
  obtain ⟨hsorted, hval, hlen, hperm, hdrop⟩ := h
  have hplen : visited.length = top_k.length + dropped.length := by
    have := hperm.length_eq
    simpa using this
  unfold visit
  simp only []
  by_cases hroom : top_k.length < toSizeT k
  · -- the queue is not full: the record is pushed
    rw [if_pos hroom]
    have hnone : dropped = [] := by
      apply List.length_eq_zero.1
      rw [Nat.min_def] at hlen
      split at hlen <;> omega
    subst hnone
    refine ⟨_, [], rfl, push_sorted _ _ hsorted, ?_, ?_, ?_, ?_⟩
    · intro x hx
      rcases (mem_push _ _ _).1 hx with rfl | hx
      · rfl
      · exact hval x hx
    · rw [push_length, List.length_append, List.length_singleton, Nat.min_def]
      split <;> omega
    · simp only [List.append_nil] at hperm ⊢
      have h1 : ((push top_k (similarityTo F query queryMag record, record)).map Prod.snd).Perm
          (record :: top_k.map Prod.snd) := by
        simpa using (push_perm top_k (similarityTo F query queryMag record, record)).map Prod.snd
      refine List.Perm.trans ?_ h1.symm
      exact (List.perm_append_comm).trans (List.Perm.cons record hperm)
    · intro r hr
      simp at hr
  · rw [if_neg hroom]
    cases top_k with
    | nil => simp at hroom; omega
    | cons top popped =>
      simp only []
      rw [List.pairwise_cons] at hsorted
      have hfull : (top :: popped).length = toSizeT k := by
        rw [Nat.min_def] at hlen
        split at hlen <;> omega
      by_cases hbetter : similarityTo F query queryMag record > top.1
      · -- the record replaces the top of the queue
        rw [if_pos hbetter]
        refine ⟨_, top.2 :: dropped, rfl, push_sorted _ _ hsorted.2, ?_, ?_, ?_, ?_⟩
        · intro x hx
          rcases (mem_push _ _ _).1 hx with rfl | hx
          · rfl
          · exact hval x (List.mem_cons_of_mem _ hx)
        · rw [push_length, List.length_append, List.length_singleton, Nat.min_def]
          simp only [List.length_cons] at hfull hplen
          split <;> omega
        · have h1 : ((push popped (similarityTo F query queryMag record, record)).map
              Prod.snd).Perm (record :: popped.map Prod.snd) := by
            simpa using (push_perm popped (similarityTo F query queryMag record, record)).map
              Prod.snd
          have h2 : (visited ++ [record]).Perm
              (record :: ((top :: popped).map Prod.snd ++ dropped)) :=
            (List.perm_append_comm).trans (List.Perm.cons record hperm)
          refine h2.trans ?_
          refine List.Perm.trans ?_ (List.Perm.append_right _ h1.symm)
          simp only [List.map_cons, List.cons_append]
          refine List.Perm.cons record ?_
          exact (List.perm_middle).symm
        · intro r hr x hx
          have hx' : x.1 = similarityTo F query queryMag record ∨ x ∈ popped := by
            rcases (mem_push _ _ _).1 hx with rfl | hx
            · exact Or.inl rfl
            · exact Or.inr hx
          have htop : similarityTo F query queryMag top.2 = top.1 :=
            (hval top (List.mem_cons_self _ _)).symm
          rcases List.mem_cons.1 hr with rfl | hr
          · rw [htop]
            rcases hx' with hx' | hx'
            · rw [hx']; exact le_of_lt hbetter
            · exact hsorted.1 x hx'
          · rcases hx' with hx' | hx'
            · rw [hx']
              exact le_trans (hdrop r hr top (List.mem_cons_self _ _)) (le_of_lt hbetter)
            · exact hdrop r hr x (List.mem_cons_of_mem _ hx')
      · -- the record is not better than the top of the queue
        rw [if_neg hbetter]
        refine ⟨_, record :: dropped, rfl, List.pairwise_cons.2 hsorted, hval, ?_, ?_, ?_⟩
        · rw [List.length_append, List.length_singleton, Nat.min_def]
          simp only [List.length_cons] at hfull hplen ⊢
          split <;> omega
        · refine (List.perm_append_comm).trans ?_
          refine (List.Perm.cons record hperm).trans ?_
          exact List.perm_middle.symm
        · intro r hr x hx
          rcases List.mem_cons.1 hr with rfl | hr
          · have h1 : similarityTo F query queryMag r ≤ top.1 := not_lt.1 hbetter
            rcases List.mem_cons.1 hx with rfl | hx
            · exact h1
            · exact le_trans h1 (hsorted.1 x hx)
          · exact hdrop r hr x hx

theorem visitAll_invariant [LinearOrder α] (F : FloatOps α) (query : Fin EMBEDDING_DIM → α)
    (queryMag : α) (k : Int) (hK : 1 ≤ toSizeT k) :
    ∀ (records : List (VectorDBRecord α)) (top_k : TopK α)
      (dropped visited : List (VectorDBRecord α)),
      LoopInvariant (similarityTo F query queryMag) (toSizeT k) top_k dropped visited →
      ∃ (final : TopK α) (dropped' : List (VectorDBRecord α)),
        visitAll F query queryMag k top_k records = some final ∧
        LoopInvariant (similarityTo F query queryMag) (toSizeT k) final dropped'
          (visited ++ records) := by
  intro records
  induction records with
  | nil =>
    intro top_k dropped visited h
    exact ⟨top_k, dropped, rfl, by simpa using h⟩
  | cons record records ih =>
    intro top_k dropped visited h
    obtain ⟨next, dropped1, hv, hinv⟩ :=
      visit_invariant F query queryMag k hK top_k dropped visited record h
    obtain ⟨final, dropped2, hfinal, hinv2⟩ := ih next dropped1 (visited ++ [record]) hinv
    refine ⟨final, dropped2, ?_, by simpa using hinv2⟩
    rw [visitAll, hv]
    exact hfinal

end VectorDB

namespace VectorDB

variable {α : Type}

/-- C15. With similarities taken as exact values of a linear order, for every
store `_records` of `n` records, every query and every `k` with `1 ≤ k` (an
`int`): `nearestNeighbor` returns a list of exactly `min k n` records, listed
in non-increasing order of similarity to the query, and the store is that
list together with records `rest` none of which has a larger similarity than
a returned record. -/
theorem nearestNeighbor_is_top_k [LinearOrder α] (F : FloatOps α)
    (_records : List (VectorDBRecord α)) (query : Fin EMBEDDING_DIM → α) (k : Int)
    (hk : 1 ≤ k) (hint : k < 2147483648) :
    ∃ result : List (VectorDBRecord α),
      nearestNeighbor F _records query k = some result ∧
      result.length = min k.toNat _records.length ∧
      result.Pairwise (fun a b =>
        similarityTo F query (computeMagnitude F query) b ≤
          similarityTo F query (computeMagnitude F query) a) ∧
      ∃ rest : List (VectorDBRecord α),
        _records.Perm (result ++ rest) ∧
        ∀ r ∈ rest, ∀ x ∈ result,
          similarityTo F query (computeMagnitude F query) r ≤
            similarityTo F query (computeMagnitude F query) x := by
  have hsize : toSizeT k = k.toNat := by
    unfold toSizeT
    rw [Int.emod_eq_of_lt (by omega) (by omega)]
  have hK : 1 ≤ toSizeT k := by rw [hsize]; omega
  have hinit : LoopInvariant (similarityTo F query (computeMagnitude F query)) (toSizeT k)
      [] [] [] := ⟨List.Pairwise.nil, by simp, by simp, by simp, by simp⟩
  obtain ⟨final, dropped, hrun, hsorted, hval, hlen, hperm, hdrop⟩ :=
    visitAll_invariant F query (computeMagnitude F query) k hK _records [] [] [] hinit
  simp only [List.nil_append] at hlen hperm
  refine ⟨(final.map Prod.snd).reverse, ?_, ?_, ?_, dropped, ?_, ?_⟩
  · unfold nearestNeighbor
    simp only [hrun, drain_eq, List.nil_append]
  · rw [List.length_reverse, List.length_map, hlen, hsize]
  · rw [List.pairwise_reverse, List.pairwise_map]
    refine hsorted.imp_of_mem ?_
    intro a b ha hb hab
    rw [← hval a ha, ← hval b hb]
    exact hab
  · exact hperm.trans (List.Perm.append_right _ (List.reverse_perm _).symm)
  · intro r hr x hx
    rw [List.mem_reverse, List.mem_map] at hx
    obtain ⟨y, hy, rfl⟩ := hx
    rw [← hval y hy]
    exact hdrop r hr y hy

theorem nearestNeighbor_is_top_k_witness :
    ∃ result : List (VectorDBRecord Int),
      nearestNeighbor intOps
        [constantRecord hi 1, constantRecord [0x6F, 0x6B] 3, constantRecord [0x41] 2]
        (fun _ => 1) 2 = some result ∧
      result.length = min (2 : Int).toNat
        [constantRecord hi 1, constantRecord [0x6F, 0x6B] 3, constantRecord [0x41] 2].length ∧
      result.Pairwise (fun a b =>
        similarityTo intOps (fun _ => 1) (computeMagnitude intOps (fun _ => 1)) b ≤
          similarityTo intOps (fun _ => 1) (computeMagnitude intOps (fun _ => 1)) a) ∧
      ∃ rest : List (VectorDBRecord Int),
        [constantRecord hi 1, constantRecord [0x6F, 0x6B] 3, constantRecord [0x41] 2].Perm
          (result ++ rest) ∧
        ∀ r ∈ rest, ∀ x ∈ result,
          similarityTo intOps (fun _ => 1) (computeMagnitude intOps (fun _ => 1)) r ≤
            similarityTo intOps (fun _ => 1) (computeMagnitude intOps (fun _ => 1)) x :=
  nearestNeighbor_is_top_k intOps
    [constantRecord hi 1, constantRecord [0x6F, 0x6B] 3, constantRecord [0x41] 2]
    (fun _ => 1) 2 (by decide) (by decide)

end VectorDB

/-! ## `splitWithDelimiter` -/

namespace RecursiveTextSplitter

theorem findFrom_some (delimiter : Bytes) (rest : Bytes) (pos e : Nat)
    (h : findFrom delimiter rest pos = some e) :
    ∃ j, e = pos + j ∧ j ≤ rest.length ∧ delimiter <+: rest.drop j ∧
      ∀ i, i < j → ¬ delimiter <+: rest.drop i := by
  induction rest generalizing pos with
  | nil =>
    simp only [findFrom] at h
    split at h
    · rename_i hp
      simp only [Option.some.injEq] at h
      exact ⟨0, by omega, by simp, (List.isPrefixOf_iff_prefix).1 hp, by intro i hi; omega⟩
    · simp at h
  | cons b rest ih =>
    simp only [findFrom] at h
    split at h
    · rename_i hp
      simp only [Option.some.injEq] at h
      exact ⟨0, by omega, by simp, (List.isPrefixOf_iff_prefix).1 hp, by intro i hi; omega⟩
    · rename_i hp
      obtain ⟨j, hj, hle, hpre, hfirst⟩ := ih (pos + 1) h
      refine ⟨j + 1, by omega, by simp only [List.length_cons]; omega, by simpa using hpre, ?_⟩
      intro i hi
      cases i with
      | zero =>
        intro hcon
        exact hp ((List.isPrefixOf_iff_prefix).2 (by simpa using hcon))
      | succ i =>
        simpa using hfirst i (by omega)

theorem findFrom_none (delimiter : Bytes) (rest : Bytes) (pos : Nat)
    (h : findFrom delimiter rest pos = none) :
    ∀ i, i ≤ rest.length → ¬ delimiter <+: rest.drop i := by
  induction rest generalizing pos with
  | nil =>
    intro i hi
    simp only [findFrom] at h
    split at h
    · simp at h
    · rename_i hp
      intro hcon
      apply hp
      apply (List.isPrefixOf_iff_prefix).2
      simpa using hcon
  | cons b rest ih =>
    intro i hi
    simp only [findFrom] at h
    split at h
    · simp at h
    · rename_i hp
      cases i with
      | zero =>
        intro hcon
        exact hp ((List.isPrefixOf_iff_prefix).2 (by simpa using hcon))
      | succ i =>
        simp only [List.length_cons] at hi
        simpa using ih (pos + 1) h i (by omega)

theorem find_some (text delimiter : Bytes) (pos e : Nat)
    (h : find text delimiter pos = some e) :
    pos ≤ e ∧ e ≤ text.length ∧ delimiter <+: text.drop e ∧
      ∀ p, pos ≤ p → p < e → ¬ delimiter <+: text.drop p := by
  unfold find at h
  split at h
  · simp at h
  · rename_i hle
    obtain ⟨j, hj, hjle, hpre, hfirst⟩ := findFrom_some delimiter _ pos e h
    rw [List.length_drop] at hjle
    subst hj
    refine ⟨by omega, by omega, ?_, ?_⟩
    · rw [List.drop_drop] at hpre
      exact hpre
    · intro p hp hlt
      have := hfirst (p - pos) (by omega)
      rw [List.drop_drop] at this
      have hpp : pos + (p - pos) = p := by omega
      rwa [hpp] at this

theorem find_none (text delimiter : Bytes) (pos : Nat) (hpos : pos ≤ text.length)
    (h : find text delimiter pos = none) :
    ∀ p, pos ≤ p → p ≤ text.length → ¬ delimiter <+: text.drop p := by
  unfold find at h
  rw [if_neg (by omega)] at h
  intro p hp hle
  have := findFrom_none delimiter _ pos h (p - pos) (by rw [List.length_drop]; omega)
  rw [List.drop_drop] at this
  have hpp : pos + (p - pos) = p := by omega
  rwa [hpp] at this

end RecursiveTextSplitter

namespace RecursiveTextSplitter

theorem joinWith_append_last (delimiter : Bytes) (tokens : List Bytes) (last : Bytes) :
    joinWith delimiter (tokens ++ [last]) =
      (tokens.map (fun t => t ++ delimiter)).flatten ++ last := by
  induction tokens with
  | nil => simp [joinWith]
  | cons t ts ih =>
    cases ts with
    | nil => simp [joinWith]
    | cons u us =>
      have : (t :: u :: us) ++ [last] = t :: u :: (us ++ [last]) := rfl
      rw [this, joinWith]
      have h2 : u :: (us ++ [last]) = (u :: us) ++ [last] := rfl
      rw [h2, ih]
      simp

theorem occurrence_of_contains (l delimiter : Bytes) (h : ContainsDelimiter l delimiter) :
    ∃ i, i + delimiter.length ≤ l.length ∧ delimiter <+: l.drop i := by
  obtain ⟨before, after, rfl⟩ := h
  refine ⟨before.length, by simp only [List.length_append]; omega, ?_⟩
  rw [List.append_assoc, List.drop_left]
  exact List.prefix_append _ _

theorem take_take_drop (l : Bytes) (pos e : Nat) (h : pos ≤ e) :
    l.take pos ++ (l.drop pos).take (e - pos) = l.take e := by
  have he : e = pos + (e - pos) := by omega
  conv_rhs => rw [he]
  rw [List.take_add]

theorem take_through_occurrence (l delimiter : Bytes) (e : Nat)
    (h : delimiter <+: l.drop e) : l.take (e + delimiter.length) = l.take e ++ delimiter := by
  rw [List.take_add]
  congr 1
  exact ((List.prefix_iff_eq_take).1 h).symm

theorem token_has_no_delimiter (text delimiter : Bytes) (hd : delimiter ≠ []) (pos e : Nat)
    (hfirst : ∀ p, pos ≤ p → p < e → ¬ delimiter <+: text.drop p) :
    ¬ ContainsDelimiter (substr text pos (e - pos)) delimiter := by
  intro hcon
  have hlen : 0 < delimiter.length := List.length_pos.2 hd
  obtain ⟨i, hi, hpre⟩ := occurrence_of_contains _ _ hcon
  have htok : (substr text pos (e - pos)).length ≤ e - pos := by
    unfold substr
    rw [List.length_take]
    omega
  have hsub : (substr text pos (e - pos)).drop i <+: text.drop (pos + i) := by
    unfold substr
    rw [List.drop_take, ← List.drop_drop]
    exact List.take_prefix _ _
  exact hfirst (pos + i) (by omega) (by omega) (hpre.trans hsub)

theorem splitLoop_spec (text delimiter : Bytes) (hd : delimiter ≠ []) (fuel : Nat) :
    ∀ (posStart : Nat) (tokens : List Bytes), posStart ≤ text.length →
      text.length - posStart < fuel →
      (tokens.map (fun t => t ++ delimiter)).flatten = text.take posStart →
      (∀ t ∈ tokens, ¬ ContainsDelimiter t delimiter) →
      ∃ r, splitLoop text delimiter fuel posStart tokens = some r ∧ r ≠ [] ∧
        joinWith delimiter r = text ∧ ∀ t ∈ r, ¬ ContainsDelimiter t delimiter := by
  have hlen : 0 < delimiter.length := List.length_pos.2 hd
  induction fuel with
  | zero => intro posStart tokens _ h; omega
  | succ fuel ih =>
    intro posStart tokens hpos hfuel hjoin hclean
    rw [splitLoop]
    cases hf : find text delimiter posStart with
    | none =>
      refine ⟨_, rfl, by simp, ?_, ?_⟩
      · rw [joinWith_append_last, hjoin, List.take_append_drop]
      · intro t ht
        rcases List.mem_append.1 ht with ht | ht
        · exact hclean t ht
        · simp only [List.mem_singleton] at ht
          subst ht
          intro hcon
          obtain ⟨i, hi, hpre⟩ := occurrence_of_contains _ _ hcon
          rw [List.length_drop] at hi
          rw [List.drop_drop] at hpre
          exact find_none text delimiter posStart hpos hf (posStart + i) (by omega) (by omega) hpre
    | some posEnd =>
      obtain ⟨h1, h2, hpre, hfirst⟩ := find_some text delimiter posStart posEnd hf
      have hend : posEnd + delimiter.length ≤ text.length := by
        have := hpre.length_le
        rw [List.length_drop] at this
        omega
      simp only []
      apply ih _ _ hend (by omega)
      · rw [List.map_append, List.flatten_append, hjoin]
        simp only [List.map_cons, List.map_nil, List.flatten_cons, List.flatten_nil,
          List.append_nil]
        rw [take_through_occurrence text delimiter posEnd hpre, ← List.append_assoc]
        congr 1
        exact take_take_drop text posStart posEnd h1
      · intro t ht
        rcases List.mem_append.1 ht with ht | ht
        · exact hclean t ht
        · simp only [List.mem_singleton] at ht
          subst ht
          exact token_has_no_delimiter text delimiter hd posStart posEnd hfirst

end RecursiveTextSplitter

namespace RecursiveTextSplitter

/-- C22. For every text and every non-empty delimiter, `splitWithDelimiter`
terminates (its loop ends within `text.length + 1` iterations, and more fuel
gives the same list) and returns a non-empty list of tokens whose join, with
the delimiter between consecutive tokens, is the text; no returned token
contains the delimiter. -/
theorem splitWithDelimiter_joins_back (text delimiter : Bytes) (hd : delimiter ≠ []) :
    ∃ tokens : List Bytes,
      (∀ fuel, text.length + 1 ≤ fuel → splitWithDelimiter fuel text delimiter = some tokens) ∧
      tokens ≠ [] ∧
      joinWith delimiter tokens = text ∧
      ∀ t ∈ tokens, ¬ ContainsDelimiter t delimiter := by
  obtain ⟨r, hr, hne, hjoin, hclean⟩ :=
    splitLoop_spec text delimiter hd (text.length + 1) 0 [] (Nat.zero_le _) (by omega)
      (by simp) (by simp)
  exact ⟨r, fun fuel hle => splitWithDelimiter_mono text delimiter r _ fuel hle hr,
    hne, hjoin, hclean⟩

theorem splitWithDelimiter_joins_back_witness :
    ∃ tokens : List Bytes,
      (∀ fuel, List.length ([0x61, 0x61, 0x61, 0x20, 0x62] : Bytes) + 1 ≤ fuel →
        splitWithDelimiter fuel [0x61, 0x61, 0x61, 0x20, 0x62] [0x61, 0x61] = some tokens) ∧
      tokens ≠ [] ∧
      joinWith [0x61, 0x61] tokens = [0x61, 0x61, 0x61, 0x20, 0x62] ∧
      ∀ t ∈ tokens, ¬ ContainsDelimiter t [0x61, 0x61] :=
  splitWithDelimiter_joins_back [0x61, 0x61, 0x61, 0x20, 0x62] [0x61, 0x61] (by decide)

end RecursiveTextSplitter

/-! ## The reads of the top of the queue -/

namespace VectorDB

variable {α : Type}

theorem topReadSizes_of_invariant [LinearOrder α] (F : FloatOps α)
    (query : Fin EMBEDDING_DIM → α) (queryMag : α) (k : Int) (hK : 1 ≤ toSizeT k) :
    ∀ (records : List (VectorDBRecord α)) (top_k : TopK α)
      (dropped visited : List (VectorDBRecord α)),
      LoopInvariant (similarityTo F query queryMag) (toSizeT k) top_k dropped visited →
      ∀ n ∈ topReadSizes F query queryMag k top_k records, n = toSizeT k := by
  intro records
  induction records with
  | nil => intro top_k dropped visited _ n hn; simp [topReadSizes] at hn
  | cons record records ih =>
    intro top_k dropped visited h n hn
    obtain ⟨next, dropped1, hv, hinv⟩ :=
      visit_invariant F query queryMag k hK top_k dropped visited record h
    have hlen := h.2.2.1
    rw [topReadSizes, hv] at hn
    simp only [] at hn
    split at hn
    · exact ih next dropped1 _ hinv n hn
    · rename_i hfull
      rcases List.mem_cons.1 hn with rfl | hn
      · rw [Nat.min_def] at hlen
        split at hlen <;> omega
      · exact ih next dropped1 _ hinv n hn

theorem drainReadSizes_pos (top_k : TopK α) : ∀ n ∈ drainReadSizes top_k, 1 ≤ n := by
  induction top_k with
  | nil => intro n hn; simp [drainReadSizes] at hn
  | cons t rest ih =>
    intro n hn
    rw [drainReadSizes] at hn
    rcases List.mem_cons.1 hn with rfl | hn
    · simp
    · exact ih n hn

/-- C21. For every store, every query and every `k` with `1 ≤ k` (an `int`),
`nearestNeighbor` reads the top of its queue only when the queue is not
empty: the call returns (no `top()` on an empty queue), every `top()` of the
loop over the records is made on a queue that already holds `k` entries, and
every `top()` of the loop that empties the queue is made on a non-empty
queue. With `k = 0` and a non-empty store the first record already reads the
top of the empty queue. -/
theorem nearestNeighbor_reads_top_of_nonempty_queue [LinearOrder α] (F : FloatOps α)
    (_records : List (VectorDBRecord α)) (query : Fin EMBEDDING_DIM → α) (k : Int)
    (hk : 1 ≤ k) (hint : k < 2147483648) :
    (∃ result, nearestNeighbor F _records query k = some result) ∧
    (∀ n ∈ topReadSizes F query (computeMagnitude F query) k [] _records,
      n = k.toNat ∧ 1 ≤ n) ∧
    (∀ top_k : TopK α, ∀ n ∈ drainReadSizes top_k, 1 ≤ n) ∧
    (∀ (record : VectorDBRecord α) (rest : List (VectorDBRecord α)),
      nearestNeighbor F (record :: rest) query 0 = none) := by
  have hsize : toSizeT k = k.toNat := by
    unfold toSizeT
    rw [Int.emod_eq_of_lt (by omega) (by omega)]
  have hK : 1 ≤ toSizeT k := by rw [hsize]; omega
  have hinit : LoopInvariant (similarityTo F query (computeMagnitude F query)) (toSizeT k)
      [] [] [] := ⟨List.Pairwise.nil, by simp, by simp, by simp, by simp⟩
  refine ⟨?_, ?_, drainReadSizes_pos, ?_⟩
  · obtain ⟨final, dropped, hrun, -⟩ :=
      visitAll_invariant F query (computeMagnitude F query) k hK _records [] [] [] hinit
    refine ⟨(drain final []).reverse, ?_⟩
    unfold nearestNeighbor
    simp only [hrun]
  · intro n hn
    have := topReadSizes_of_invariant F query (computeMagnitude F query) k hK _records
      [] [] [] hinit n hn
    rw [hsize] at this
    omega
  · intro record rest
    simp [nearestNeighbor, visitAll, visit, toSizeT]

theorem nearestNeighbor_reads_top_of_nonempty_queue_witness :
    (∃ result, nearestNeighbor intOps
      [constantRecord hi 1, constantRecord [0x6F, 0x6B] 3, constantRecord [0x41] 2]
      (fun _ => 1) 2 = some result) ∧
    (∀ n ∈ topReadSizes intOps (fun _ => 1) (computeMagnitude intOps (fun _ => 1)) 2 []
      [constantRecord hi 1, constantRecord [0x6F, 0x6B] 3, constantRecord [0x41] 2],
      n = (2 : Int).toNat ∧ 1 ≤ n) :=
  ⟨(nearestNeighbor_reads_top_of_nonempty_queue intOps
      [constantRecord hi 1, constantRecord [0x6F, 0x6B] 3, constantRecord [0x41] 2]
      (fun _ => 1) 2 (by decide) (by decide)).1,
   (nearestNeighbor_reads_top_of_nonempty_queue intOps
      [constantRecord hi 1, constantRecord [0x6F, 0x6B] 3, constantRecord [0x41] 2]
      (fun _ => 1) 2 (by decide) (by decide)).2.1⟩

end VectorDB
